import Mathlib

/-!
# A shallow embedding of the remixdb LSM storage engine core

This file embeds, in Lean 4, the parts of the remixdb/xdb storage engine
(`xdb.c`, `kv.c`, `lib.c`, `wh.c`) needed to settle the specification claims:

* the key-value record model (`struct kv`), key comparison (`kref_compare`),
  record sizing (`sst_kv_size`), CRC32C hashing, and the vi128 varint codec;
* the point-operation surface `xdb_get` / `xdb_probe` / `xdb_put` / `xdb_del`
  and the `remixdb_*` wrappers, over an association-list model of the
  memtables (the wormhole ordered map is consumed through its `kvmap_api`
  contract: `inpr` reports whether the key is present and passes the record
  or `NULL` to the callback; `merge` passes the current record or `NULL` to
  the merge function and stores a returned replacement);
* the `mtsz` size-accounting state machine (`xdb_mt_update_func`,
  `xdb_mt_reinsert_func`, `xdb_recover_update_func`, view rotation);
* the compaction reinsertion walk `xdb_reinsert_rejected`;
* the compaction event order of `xdb_do_comp` as a trace of events;
* WAL recovery: `wal_vi128_decode`, `xdb_recover_fd`, and the
  version-reconciliation logic of `xdb_wal_recover`;
* the k-way merging iterator of `kv.c` (`miter_*`) and the tombstone-aware
  xdb iterator built on it.

Machine integers are modelled as `Nat` with explicit `% 2^32` where the C
code performs 32-bit arithmetic.  C pointers that may be `NULL` and reads
that may leave a buffer are made explicit in the result types (`VRes.oob`
models a read outside the mapped buffer, including a `NULL` dereference).
-/

namespace RemixDB

/-- Byte strings (keys, values, file contents) are lists of byte values. -/
abbrev Bytes := List Nat

/-- `kref_compare` (kv.c): memcmp over the common prefix, then
`klen_compare` on the lengths.  For byte lists this is exactly
element-by-element lexicographic comparison with the shorter list smaller. -/
def kref_compare : Bytes → Bytes → Ordering
  | [], [] => .eq
  | [], _ :: _ => .lt
  | _ :: _, [] => .gt
  | a :: as, b :: bs => if a < b then .lt else if b < a then .gt else kref_compare as bs

/-- Strict key order: `a` sorts strictly before `b`. -/
def keyLt (a b : Bytes) : Prop := kref_compare a b = .lt

instance : DecidableEq Ordering := fun a b => by
  cases a <;> cases b <;> first | exact isTrue rfl | exact isFalse (by simp)

instance (a b : Bytes) : Decidable (keyLt a b) := by
  unfold keyLt; infer_instance

/-- Tombstone sentinel `SST_VLEN_TS` (sst.h): a record whose `vlen` equals
this value marks a deletion. -/
def SST_VLEN_TS : Nat := 0x10000

/-- `SST_VLEN_MASK` (sst.h): the effective value length is `vlen & 0xffff`. -/
def SST_VLEN_MASK : Nat := 0xffff

/-- `struct kv` (kv.h): a packed header (u32 `klen`, u32 `vlen`, u64 `hash`,
16 bytes in total) followed by the flexible array `kv[]` holding the key
bytes and then the effective value bytes. -/
structure Rec where
  klen : Nat
  vlen : Nat
  hash : Nat
  data : Bytes
  deriving DecidableEq

/-- The key bytes of a record: the first `klen` bytes of `kv[]`. -/
def Rec.key (r : Rec) : Bytes := r.data.take r.klen

/-- The value bytes of a record: the bytes of `kv[]` after the key. -/
def Rec.val (r : Rec) : Bytes := r.data.drop r.klen

/-- `sizeof(struct kv)`: the packed header is 16 bytes. -/
def KV_HEADER_SIZE : Nat := 16

/-- `sst_kv_size`: `sizeof(*kv) + kv->klen + (kv->vlen & SST_VLEN_MASK)`. -/
def sst_kv_size (r : Rec) : Nat := KV_HEADER_SIZE + r.klen + (r.vlen &&& SST_VLEN_MASK)

/-- `KV_CRC32C_SEED` (kv.h). -/
def KV_CRC32C_SEED : Nat := 0xDEADBEEF

/-- One step of the bit-serial CRC32C (Castagnoli, reflected polynomial
`0x82F63B78`): the semantics of the hardware `crc32c_u8` instruction used by
`crc32c_u8` in lib.c. -/
def crc32c_u8 (crc b : Nat) : Nat :=
  let step : Nat → Nat := fun c => if c &&& 1 = 1 then (c >>> 1) ^^^ 0x82F63B78 else c >>> 1
  let c0 := (crc ^^^ b) &&& 0xff
  let c8 := step (step (step (step (step (step (step (step c0)))))))
  ((crc >>> 8) ^^^ c8) % 2 ^ 32

/-- `crc32c_inc` (lib.c): incremental CRC32C over a buffer.  The C version
consumes the buffer in chunks of 8, 4 and 1 bytes through the hardware
instructions; on a little-endian host this computes exactly the byte-serial
fold below. -/
def crc32c_inc (buf : Bytes) (crc : Nat) : Nat := buf.foldl crc32c_u8 crc

/-- `kv_crc32c` (kv.c): CRC32C of a key with the fixed seed. -/
def kv_crc32c (buf : Bytes) : Nat := crc32c_inc buf KV_CRC32C_SEED

/-- `kv_crc32c_extend` (kv.c): high 32 bits are the bitwise complement of
the low 32 bits. -/
def kv_crc32c_extend (lo : Nat) : Nat := ((lo ^^^ 0xffffffff) <<< 32) ||| lo

/-- `kv_create` / `kv_refill` (kv.c): build a fresh record from key and
value buffers; the hash is the extended CRC32C of the key. -/
def kv_create (k v : Bytes) : Rec :=
  { klen := k.length, vlen := v.length, hash := kv_crc32c_extend (kv_crc32c k), data := k ++ v }

/-- `xdb_new_ts` (xdb.c): a tombstone record for a key reference: no value
bytes, `vlen = SST_VLEN_TS`, hash extended from the kref's 32-bit hash. -/
def xdb_new_ts (k : Bytes) (hash32 : Nat) : Rec :=
  { klen := k.length, vlen := SST_VLEN_TS, hash := kv_crc32c_extend hash32, data := k }

/-! ## vi128 varint codec (lib.c) and WAL record decoding (xdb.c)

`vi128_decode_u32` reads bytes sequentially; 7 payload bits per byte, a
clear high bit terminates.  After 5 continuation bytes (`shift` reaches 35)
the C function stores 0 and returns `NULL`.  The embedding reads from an
explicit buffer; a read outside the buffer (including the later dereference
of a `NULL` pointer returned here) is the distinguished outcome `oob`. -/

/-- Result of one `vi128_decode_u32` call: a read outside the mapped buffer
(`oob`), the `NULL` return for an overlong encoding (`nullret`), or the
decoded `u32` value with the position just past the varint. -/
inductive VRes where
  | oob : VRes
  | nullret : VRes
  | ok (v : Nat) (next : Nat) : VRes
  deriving DecidableEq

/-- The decoding loop of `vi128_decode_u32` (lib.c): `r |= (byte & 0x7f) << shift`
in u32 arithmetic; the loop runs for `shift = 0, 7, 14, 21, 28` and gives
up (`NULL`) when `shift` reaches 32.  The structural counter equals the
number of loop iterations left before `shift ≥ 32` (five at entry, since
`shift` starts at 0 and grows by 7), so the two exhaustion tests coincide
and the `0` case is the same `NULL` return. -/
def vi128_decode_u32_loop (mem : Bytes) : Nat → Nat → Nat → Nat → VRes
  | _, _, _, 0 => .nullret
  | pos, shift, r, fuel + 1 =>
    if shift < 32 then
      match mem.get? pos with
      | none => .oob
      | some b =>
          let r1 := (r ||| ((b &&& 0x7f) <<< shift)) % 2 ^ 32
          if b &&& 0x80 = 0 then .ok r1 (pos + 1)
          else vi128_decode_u32_loop mem (pos + 1) (shift + 7) r1 fuel
    else .nullret

/-- `vi128_decode_u32` (lib.c) reading at `pos` inside `mem`. -/
def vi128_decode_u32 (mem : Bytes) (pos : Nat) : VRes :=
  vi128_decode_u32_loop mem pos 0 0 5

/-- Little-endian u32 read (`*(const u32 *)p`). -/
def readU32LE (mem : Bytes) (pos : Nat) : Nat :=
  (mem.get? pos).getD 0 + ((mem.get? (pos + 1)).getD 0) * 0x100 +
    ((mem.get? (pos + 2)).getD 0) * 0x10000 + ((mem.get? (pos + 3)).getD 0) * 0x1000000

/-- Decoded WAL record header: `struct wal_kv` plus the position of the key
bytes and of the following record. -/
structure WalKv where
  klen : Nat
  vlen : Nat
  kvlen : Nat
  kpos : Nat
  next : Nat
  deriving DecidableEq

/-- Result of `wal_vi128_decode`: `fault` models an out-of-bounds access
(in the C code: dereferencing the `NULL` returned by an overlong
`vi128_decode_u32`, or `kv_crc32c` reading past `end` when the u32 length
sum wrapped), `nullret` the graceful `NULL` return, `ok` a decoded record. -/
inductive WRes where
  | fault : WRes
  | nullret : WRes
  | ok (wkv : WalKv) : WRes
  deriving DecidableEq

/-- `wal_vi128_decode` (xdb.c) on the region `[pos, mem.length)`:
count the varint terminator bytes among the first `min(remaining, 10)`
bytes; fewer than two means a truncated header (`NULL`).  Then decode the
two varints — the C code does not re-check the `NULL` returned when a
varint exceeds 5 bytes, so that case dereferences `NULL` (`fault`).  The
length check uses the u32 sum `klen + (vlen & SST_VLEN_MASK)`; the key CRC
is then computed over `klen` bytes, which can leave the buffer when the u32
sum wrapped (`fault`). -/
def wal_vi128_decode (mem : Bytes) (pos : Nat) : WRes :=
  let safe := (mem.drop pos).take 10
  let count := safe.countP (fun b => b &&& 0x80 = 0)
  if count < 2 then .nullret
  else
    match vi128_decode_u32 mem pos with
    | .oob => .fault
    | .nullret => .fault
    | .ok klen p1 =>
      match vi128_decode_u32 mem p1 with
      | .oob => .fault
      | .nullret => .fault
      | .ok vlen p2 =>
        let kvlen := (klen + (vlen &&& SST_VLEN_MASK)) % 2 ^ 32
        if p2 + kvlen + 4 > mem.length then .nullret
        else if p2 + klen > mem.length then .fault
        else
          let sum1 := kv_crc32c ((mem.drop p2).take klen)
          let sum2 := readU32LE mem (p2 + kvlen)
          if sum1 ≠ sum2 then .nullret
          else .ok ⟨klen, vlen, kvlen, p2, p2 + kvlen + 4⟩

/-! ## Memtable model and the xdb point-operation surface (xdb.c)

The wormhole ordered map is out of the engine core; the core consumes it
through the `kvmap_api` contract (spec §4.2, kv.h): a map from byte-string
keys to records with at most one record per key.  It is modelled as an
association list with unique keys: `inpr`-style lookup returns the record
stored under the key (tombstones included), and `merge`-driven insertion
replaces the record stored under the same key. -/

/-- A memtable: association list of records, at most one per key. -/
abbrev Mt := List Rec

/-- Lookup a key: the record stored under `k`, tombstones included
(the `inpr` path: the callback receives the raw record). -/
def mtGet (mt : Mt) (k : Bytes) : Option Rec := mt.find? (fun r => r.key = k)

/-- Store a record under its key, replacing any previous record with the
same key (the wormhole `merge` path when the merge function returns a new
record: `wormleaf_update` on a hit, `wormleaf_insert` on a miss). -/
def mtPut (r : Rec) : Mt → Mt
  | [] => [r]
  | x :: xs => if x.key = r.key then r :: xs else x :: mtPut r xs

/-- The engine state touched by the point operations: the writable
memtable, the optional immutable memtable, the (logical content of the)
SSTable version, the `mtsz` counter, and the records appended to the
current WAL. -/
structure Xdb where
  wmt : Mt
  imt : Option Mt
  sst : Mt
  mtsz : Nat
  wal : List Rec
  deriving DecidableEq

/-- Modelled from the spec: `msstv_get_ts` (§4.5; sst.c is not part of the
core sources).  A point lookup in the SSTable version that observes
tombstones: it returns "not found" for a tombstone, and the caller never
observes the TS record. -/
def msstv_get_ts (sst : Mt) (k : Bytes) : Option Rec :=
  match mtGet sst k with
  | some r => if r.vlen = SST_VLEN_TS then none else some r
  | none => none

/-- Modelled from the spec: `msstv_probe_ts` (§4.5; sst.c is not part of
the core sources).  Existence probe that reports `false` for a tombstone. -/
def msstv_probe_ts (sst : Mt) (k : Bytes) : Bool :=
  match mtGet sst k with
  | some r => ¬ (r.vlen = SST_VLEN_TS)
  | none => false

/-- `xdb_inp_get` applied to the record found under a key: a tombstone
yields `NULL`, anything else is copied out. -/
def xdb_inp_get (r : Rec) : Option Rec :=
  if r.vlen = SST_VLEN_TS then none else some r

/-- `xdb_get` (xdb.c): probe the WMT; if the key is present there the
callback's result is returned.  Otherwise probe the IMT when the view has
one; otherwise fall through to `msstv_get_ts`. -/
def xdb_get (db : Xdb) (k : Bytes) : Option Rec :=
  match mtGet db.wmt k with
  | some r => xdb_inp_get r
  | none =>
    match db.imt with
    | some imt =>
      match mtGet imt k with
      | some r => xdb_inp_get r
      | none => msstv_get_ts db.sst k
    | none => msstv_get_ts db.sst k

/-- `xdb_probe` (xdb.c): same chain as `xdb_get` with the `xdb_inp_probe`
callback (`kv && kv->vlen != SST_VLEN_TS`). -/
def xdb_probe (db : Xdb) (k : Bytes) : Bool :=
  match mtGet db.wmt k with
  | some r => ¬ (r.vlen = SST_VLEN_TS)
  | none =>
    match db.imt with
    | some imt =>
      match mtGet imt k with
      | some r => ¬ (r.vlen = SST_VLEN_TS)
      | none => msstv_probe_ts db.sst k
    | none => msstv_probe_ts db.sst k

/-- `xdb_update` (xdb.c): merge `newkv` into the WMT through
`xdb_mt_update_func`, which under the engine lock adds
`sst_kv_size(new) − sst_kv_size(old)` to `mtsz` (the source asserts
`mtsz ≥ oldsz`) and appends the record to the WAL.  In this sequential
model the view never rotates out from under the writer, so the retry loop
runs once and the operation succeeds. -/
def xdb_update (db : Xdb) (newkv : Rec) : Xdb :=
  let oldsz := match mtGet db.wmt newkv.key with
    | some r => sst_kv_size r
    | none => 0
  { db with
    wmt := mtPut newkv db.wmt
    mtsz := db.mtsz + sst_kv_size newkv - oldsz
    wal := db.wal ++ [newkv] }

/-- `xdb_put` (xdb.c): duplicate the caller's record and update.
Allocation is modelled as succeeding, so the operation returns `true`. -/
def xdb_put (db : Xdb) (k v : Bytes) : Bool × Xdb :=
  (true, xdb_update db (kv_create k v))

/-- `xdb_del` (xdb.c): build a tombstone record for the key and update. -/
def xdb_del (db : Xdb) (k : Bytes) : Bool × Xdb :=
  (true, xdb_update db (xdb_new_ts k (kv_crc32c k)))

/-- `remixdb_put` (xdb.c): reject the request when the u32 sum
`klen + vlen` exceeds 65500, before any state change; otherwise create the
record and update. -/
def remixdb_put (db : Xdb) (k v : Bytes) : Bool × Xdb :=
  if (k.length + v.length) % 2 ^ 32 > 65500 then (false, db)
  else (true, xdb_update db (kv_create k v))

/-- `remixdb_del` (xdb.c): build the kref (hash32 := CRC32C of the key) and
the tombstone, and update.  The source performs no length check on this
path. -/
def remixdb_del (db : Xdb) (k : Bytes) : Bool × Xdb :=
  (true, xdb_update db (xdb_new_ts k (kv_crc32c k)))

/-! ## The `mtsz` accounting state machine (claim C6)

Every mutation of the WMT goes through one of three merge callbacks, each
of which adjusts `mtsz` under the engine lock; compaction's view rotation
adopts a freshly cleaned (empty) WMT and resets `mtsz` to 0 while holding
the lock (`xdb_do_comp`). -/

/-- One `mtsz`-relevant event. -/
inductive MtOp where
  /-- `xdb_mt_update_func`: put/del/merge install `newkv`, adding
  `size(new) − size(old)` to `mtsz`. -/
  | update (newkv : Rec) : MtOp
  /-- `xdb_mt_reinsert_func`: reinsertion of a rejected key inserts a copy
  only when the key is absent, adding its full size. -/
  | reinsert (kv : Rec) : MtOp
  /-- `xdb_recover_update_func`: WAL replay installs `newkv`, adding
  `size(new) − size(old)`. -/
  | recover (newkv : Rec) : MtOp
  /-- `xdb_do_comp` view rotation: adopt an empty WMT, reset `mtsz` to 0. -/
  | rotate : MtOp
  deriving DecidableEq

/-- Apply one event to the pair (WMT, mtsz). -/
def mtStep (s : Mt × Nat) : MtOp → Mt × Nat
  | .update kv =>
    let oldsz := match mtGet s.1 kv.key with
      | some r => sst_kv_size r
      | none => 0
    (mtPut kv s.1, s.2 + sst_kv_size kv - oldsz)
  | .reinsert kv =>
    match mtGet s.1 kv.key with
    | some _ => s
    | none => (mtPut kv s.1, s.2 + sst_kv_size kv)
  | .recover kv =>
    let oldsz := match mtGet s.1 kv.key with
      | some r => sst_kv_size r
      | none => 0
    (mtPut kv s.1, s.2 + sst_kv_size kv - oldsz)
  | .rotate => ([], 0)

/-- Total size of the records of a memtable: `Σ sst_kv_size(rec)`. -/
def mtSizeSum (mt : Mt) : Nat := (mt.map sst_kv_size).sum

/-! ## Reinsertion of rejected keys (`xdb_reinsert_rejected`, xdb.c)

The IMT is iterated through the ordered-iterator contract of `kvmap_api`
(`iter_seek` positions at the first key ≥ target, `iter_peek` returns the
record at the current position or `NULL` past the end, `iter_next` returns
the current record and advances).  The IMT is modelled as its list of
records in key order with an explicit position; `iter_peek`'s no-copy
pointer identity between records is position identity in the list. -/

/-- The `iter_seek` contract: index of the first record whose key is not
less than `k` (the list length when all keys are smaller). -/
def lowerBound (l : List Rec) (k : Bytes) : Nat :=
  match l with
  | [] => 0
  | r :: rs => if kref_compare r.key k = .lt then lowerBound rs k + 1 else 0

/-- The state mutated by reinsertion: the new WMT, `mtsz`, and the records
appended to the (new) WAL. -/
structure RSt where
  wmt : Mt
  mtsz : Nat
  wal : List Rec
  deriving DecidableEq

/-- `xdb_mt_reinsert_func` (xdb.c), driven through `kvmap_kv_merge`: when
the key is absent from the WMT, duplicate the IMT record, add its size to
`mtsz` and append it to the WAL under the engine lock, and install the
copy; when the key is present, keep the existing WMT record (`return kv0`,
which the wormhole merge treats as no replacement). -/
def xdb_mt_reinsert_step (st : RSt) (curr : Rec) : RSt :=
  match mtGet st.wmt curr.key with
  | some _ => st
  | none =>
    { wmt := mtPut curr st.wmt
      mtsz := st.mtsz + sst_kv_size curr
      wal := st.wal ++ [curr] }

/-- The inner loop of `xdb_reinsert_rejected` over one rejected partition:
starting at position `j`, take the record at the iterator (`iter_next`),
stop when it is the `end` record (pointer identity = position identity) or
the iterator is exhausted, otherwise merge it into the WMT and continue. -/
def reinsertLoop (imt : List Rec) (endIdx : Option Nat) (st : RSt) (j : Nat) : RSt :=
  if h : j < imt.length then
    if endIdx = some j then st
    else reinsertLoop imt endIdx (xdb_mt_reinsert_step st (imt.get ⟨j, h⟩)) (j + 1)
  else st
  termination_by imt.length - j

/-- One anchor of `xdb_reinsert_rejected`'s outer loop: skip accepted
partitions (`vlen == 0`); for a rejected one, compute the `end` record by
seeking to the next anchor (`NULL` when there is no next anchor or the
seek lands past the end of the IMT), seek to this anchor, and run the
inner loop. -/
def reinsertAnchor (imt : List Rec) (anchors : List Rec) (i : Nat) (a : Rec) (st : RSt) : RSt :=
  if a.vlen = 0 then st
  else
    let endIdx : Option Nat :=
      match anchors.get? (i + 1) with
      | some az =>
        let e := lowerBound imt az.key
        if e < imt.length then some e else none
      | none => none
    reinsertLoop imt endIdx st (lowerBound imt a.key)

/-- The outer loop of `xdb_reinsert_rejected` over the NULL-terminated
anchor array. -/
def reinsertAnchors (imt : List Rec) (anchors : List Rec) (st : RSt) (i : Nat) : RSt :=
  match h : anchors.get? i with
  | none => st
  | some a => reinsertAnchors imt anchors (reinsertAnchor imt anchors i a st) (i + 1)
  termination_by anchors.length - i
  decreasing_by
    rcases List.get?_eq_some.mp h with ⟨hlt, _⟩
    omega

/-- `xdb_reinsert_rejected` (xdb.c). -/
def xdb_reinsert_rejected (st : RSt) (imt : List Rec) (anchors : List Rec) : RSt :=
  reinsertAnchors imt anchors st 0

/-- The IMT position at which the inner loop for anchor `i` stops: the
seek position of the next anchor, or the end of the IMT for the last
anchor. -/
def reinsertStop (imt anchors : List Rec) (i : Nat) : Nat :=
  match anchors.get? (i + 1) with
  | some az => lowerBound imt az.key
  | none => imt.length

/-- The IMT records the inner loop processes for anchor `i`:
none for an accepted partition, otherwise the records from the seek
position of this anchor up to the stop position. -/
def procSlice (imt anchors : List Rec) (i : Nat) (a : Rec) : List Rec :=
  if a.vlen = 0 then []
  else (imt.drop (lowerBound imt a.key)).take (reinsertStop imt anchors i - lowerBound imt a.key)

/-- All IMT records processed by the outer loop from anchor `i` on, in
processing order. -/
def procAll (imt anchors : List Rec) (i : Nat) : List Rec :=
  match h : anchors.get? i with
  | none => []
  | some a => procSlice imt anchors i a ++ procAll imt anchors (i + 1)
  termination_by anchors.length - i
  decreasing_by
    rcases List.get?_eq_some.mp h with ⟨hlt, _⟩
    omega

/-! ## The compaction event order (`xdb_do_comp`, xdb.c; claim C4) -/

/-- The externally meaningful events of one compaction run, in the order
`xdb_do_comp` performs them. -/
inductive CompEvent where
  /-- acquire the engine spinlock -/
  | lockAcquire : CompEvent
  /-- advance `mt_view` to the compacting view -/
  | viewSwitchToComp : CompEvent
  /-- `wal_switch`: flush+fsync+drain the old WAL, swap fds, write the new
  version header -/
  | walSwitch : CompEvent
  /-- release the engine spinlock -/
  | lockRelease : CompEvent
  /-- `qsbr_wait` for readers to cross the generation -/
  | qsbrWait : CompEvent
  /-- `msstz_comp`: the SSTable compaction -/
  | msstzComp : CompEvent
  /-- one rejected record re-appended to the new WAL during
  `xdb_reinsert_rejected` (under the engine lock) -/
  | reinsertAppend (i : Nat) : CompEvent
  /-- `wal_flush_sync` of the new WAL: flush the buffer and enqueue the
  fsync -/
  | newWalFlushSync : CompEvent
  /-- `msstz_putv`: release the pinned old version -/
  | putOldVersion : CompEvent
  /-- advance `mt_view` back to the normal view -/
  | viewSwitchBack : CompEvent
  /-- `clean` the former IMT -/
  | cleanImt : CompEvent
  /-- `wal_io_complete`: wait until the new-WAL writes and fsync have
  completed -/
  | newWalIoComplete : CompEvent
  /-- `ftruncate(old wal, 0)` -/
  | truncateOldWal : CompEvent
  /-- `fdatasync(old wal)` -/
  | fdatasyncOldWal : CompEvent
  deriving DecidableEq

/-- The prefix of the `xdb_do_comp` trace before reinsertion. -/
def compTracePre : List CompEvent :=
  [.lockAcquire, .viewSwitchToComp, .walSwitch, .lockRelease, .qsbrWait, .msstzComp]

/-- The suffix of the `xdb_do_comp` trace after reinsertion. -/
def compTracePost : List CompEvent :=
  [.lockAcquire, .newWalFlushSync, .lockRelease, .putOldVersion, .viewSwitchBack,
   .qsbrWait, .cleanImt, .lockAcquire, .newWalIoComplete, .lockRelease,
   .truncateOldWal, .fdatasyncOldWal]

/-- The event trace of one `xdb_do_comp` run that re-appends `nrej`
rejected records, read off the straight-line body of `xdb_do_comp`. -/
def xdb_do_comp_trace (nrej : Nat) : List CompEvent :=
  compTracePre ++ (List.range nrej).map CompEvent.reinsertAppend ++ compTracePost

/-! ## WAL recovery (`xdb_recover_fd`, `xdb_wal_recover`, xdb.c) -/

/-- The zero-skipping loops of `xdb_recover_fd`:
`while (iter < end && *iter == 0) iter++`. -/
def skipZeros (mem : Bytes) (pos : Nat) : Nat :=
  pos + ((mem.drop pos).takeWhile (fun b => b = 0)).length

/-- Result of replaying one WAL file: `fault` models the out-of-bounds
access inherited from `wal_vi128_decode`; `done` carries the memtable, the
updated `mtsz`, and `rsize` (bytes consumed). -/
inductive RecRes where
  | fault : RecRes
  | done (mt : Mt) (mtsz : Nat) (rsize : Nat) : RecRes
  deriving DecidableEq

/-- The record-replay loop of `xdb_recover_fd`: decode a record, build the
`struct kv` (hash extended from the stored key checksum), merge it into
the memtable through `xdb_recover_update_func` (which replaces the old
record and adds `size(new) − size(old)` to `mtsz`), skip padding zeros,
repeat; stop at the first failed decode.  The loop advances at least one
byte per iteration, so `mem.length + 1` fuel always reaches an exit. -/
def recoverLoop : Nat → Bytes → Mt → Nat → Nat → RecRes
  | 0, _, mt, mtsz, pos => .done mt mtsz pos
  | fuel + 1, mem, mt, mtsz, pos =>
    if pos < mem.length then
      match wal_vi128_decode mem pos with
      | .fault => .fault
      | .nullret => .done mt mtsz pos
      | .ok wkv =>
        let kv : Rec :=
          { klen := wkv.klen, vlen := wkv.vlen,
            hash := kv_crc32c_extend (readU32LE mem (wkv.kpos + wkv.kvlen)),
            data := (mem.drop wkv.kpos).take wkv.kvlen }
        let oldsz := match mtGet mt kv.key with
          | some r => sst_kv_size r
          | none => 0
        recoverLoop fuel mem (mtPut kv mt) (mtsz + sst_kv_size kv - oldsz) (skipZeros mem wkv.next)
    else .done mt mtsz pos

/-- `xdb_recover_fd` (xdb.c): an empty file recovers nothing; otherwise
skip the 8-byte version header and leading padding zeros and run the
replay loop. -/
def xdb_recover_fd (mem : Bytes) (mt0 : Mt) (mtsz0 : Nat) : RecRes :=
  if mem.length = 0 then .done mt0 mtsz0 0
  else recoverLoop (mem.length + 1) mem mt0 mtsz0 (skipZeros mem 8)

/-- The file-selection and replay plan computed by `xdb_wal_recover`:
which original file (0 = `wal1`, 1 = `wal2`) becomes the current one
(`fds[0]` after the swap) and which files are replayed, in order. -/
structure WalPlan where
  current : Nat
  replays : List Nat
  deriving DecidableEq

/-- The version-reconciliation logic of `xdb_wal_recover` (xdb.c), as a
function of the two version headers `v1` (from `wal1`) and `v2` (from
`wal2`); a zero version marks an invalid/empty file.  `none` models
`debug_die()`.  The source selects `wal2` exactly when `vs[0] < vs[1]`;
when both versions are non-zero it aborts on equality and otherwise
replays the older file (`fds[1]` after the swap) before the newer one;
when at most one is non-zero only the selected file is replayed. -/
def xdb_wal_recover_plan (v1 v2 : Nat) : Option WalPlan :=
  let cur : Nat := if v1 < v2 then 1 else 0
  let older : Nat := if v1 < v2 then 0 else 1
  if v1 ≠ 0 ∧ v2 ≠ 0 then
    if v1 = v2 then none
    else some ⟨cur, [older, cur]⟩
  else some ⟨cur, [cur]⟩

/-! ## The merging iterator (`miter_*`, kv.c) and the xdb iterator

The binary heap `mh[1..nway]` of `struct miter` is embedded as a list (the
C slot `mh[i]` is list entry `i-1`; the retain slot `mh[0]` holds a key
copy across `skip_unique` and is modelled by retaining the key value
directly).  Each stream is an ordered iterator (the `kvmap_api` iterator
contract) over a fixed list of records with a current position; a stream
whose iterator is exhausted has `kref.ptr == NULL`, i.e. `cur = none`.
The C code compares stream objects by pointer (`mh[1] == s0`); streams in
one miter have pairwise distinct ranks (`rank` is assigned from `nway` at
add time), so rank equality models pointer identity. -/

/-- One merge stream (`struct miter_stream`): the backing records in key
order, the iterator position, the stream rank, and the api's `unique`
flag. -/
structure MStream where
  recs : List Rec
  pos : Nat
  rank : Nat
  uniq : Bool
  deriving DecidableEq, Inhabited

/-- The record under the stream's iterator (`NULL` kref when exhausted). -/
def MStream.cur (s : MStream) : Option Rec := s.recs.get? s.pos

/-- `struct miter`: stream count and the heap array. -/
structure Miter where
  nway : Nat
  mh : List MStream
  deriving DecidableEq

/-- The C heap slot `mh[i]` (1-indexed). -/
def mhGet (mi : Miter) (i : Nat) : MStream := (mi.mh.get? (i - 1)).getD default

/-- `miter_swap` (kv.c): swap child `cidx` with its parent. -/
def miter_swap (mi : Miter) (cidx : Nat) : Miter :=
  let a := mhGet mi cidx
  let b := mhGet mi (cidx / 2)
  { mi with mh := (mi.mh.set (cidx - 1) b).set (cidx / 2 - 1) a }

/-- `miter_should_swap` (kv.c): a `NULL` parent kref always swaps, a
`NULL` child never; otherwise compare keys, and on equal keys the parent
moves down when its rank is lower (high rank = high priority). -/
def miter_should_swap (sp sc : MStream) : Bool :=
  match sp.cur with
  | none => true
  | some rp =>
    match sc.cur with
    | none => false
    | some rc =>
      match kref_compare rp.key rc.key with
      | .gt => true
      | .lt => false
      | .eq => decide (sp.rank < sc.rank)

/-- `miter_upheap` (kv.c). -/
def miter_upheap (mi : Miter) (idx : Nat) : Miter :=
  if h : 1 < idx then
    let sp := mhGet mi (idx / 2)
    let sc := mhGet mi idx
    if sc.cur = none then mi
    else if miter_should_swap sp sc then miter_upheap (miter_swap mi idx) (idx / 2)
    else mi
  else mi
  termination_by idx
  decreasing_by exact Nat.div_lt_self (by omega) (by omega)

/-- `miter_downheap` (kv.c); the descent at least doubles `idx`, so
`nway + 1` fuel always reaches the exit taken by the C loop. -/
def miter_downheap_f : Nat → Miter → Nat → Miter
  | 0, mi, _ => mi
  | fuel + 1, mi, idx =>
    if 2 * idx ≤ mi.nway then
      let sl := mhGet mi (2 * idx)
      let idxs :=
        if 2 * idx < mi.nway ∧ miter_should_swap sl (mhGet mi (2 * idx + 1)) then 2 * idx + 1
        else 2 * idx
      if miter_should_swap (mhGet mi idx) (mhGet mi idxs) then
        miter_downheap_f fuel (miter_swap mi idxs) idxs
      else mi
    else mi

/-- `miter_downheap` entry point. -/
def miter_downheap (mi : Miter) (idx : Nat) : Miter := miter_downheap_f (mi.nway + 1) mi idx

/-- `iter_seek` on one stream (ordered-iterator contract): position at the
first key not less than the target; `miter_stream_fix` then re-reads the
kref, which the model derives from the position. -/
def streamSeek (s : MStream) (k : Bytes) : MStream := { s with pos := lowerBound s.recs k }

/-- `miter_stream_skip`: `iter_skip1` plus `miter_stream_fix`. -/
def streamSkip (s : MStream) : MStream := { s with pos := s.pos + 1 }

/-- `miter_seek` (kv.c): seek every stream, then sift slots `2..nway` up. -/
def miter_seek (mi : Miter) (k : Bytes) : Miter :=
  let mi1 : Miter := { mi with mh := mi.mh.map (fun s => streamSeek s k) }
  (List.range' 2 (mi.nway - 1)).foldl miter_upheap mi1

/-- `miter_valid` (kv.c): some stream exists and the top kref is not
`NULL`. -/
def miter_valid (mi : Miter) : Bool := mi.nway ≠ 0 ∧ (mhGet mi 1).cur ≠ none

/-- `miter_kvref` (kv.c): `false` when `nway == 0`; otherwise the top
stream's `iter_kvref`, which fails exactly when the iterator is
exhausted. -/
def miter_kvref (mi : Miter) : Option Rec :=
  if mi.nway = 0 then none else (mhGet mi 1).cur

/-- `miter_skip1` (kv.c): advance the top stream and sift it down. -/
def miter_skip1 (mi : Miter) : Miter :=
  if miter_valid mi then
    miter_downheap { mi with mh := mi.mh.set 0 (streamSkip (mhGet mi 1)) } 1
  else mi

/-- Total number of records not yet passed by the streams; each
`miter_skip1` from a valid state decreases it, so it bounds every skip
loop. -/
def totalRemaining (mi : Miter) : Nat := (mi.mh.map (fun s => s.recs.length - s.pos)).sum

/-- The do-while loop of `miter_skip_unique` (kv.c): after each
`miter_skip1`, stop when the miter is exhausted, when the retained top
stream (identified by rank `r0`) with a unique api is back on top, or when
the top key differs from the retained key `k0`. -/
def miter_skip_unique_loop : Nat → Bytes → Nat → Bool → Miter → Miter
  | 0, _, _, _, mi => mi
  | fuel + 1, k0, r0, u0, mi =>
    let mi1 := miter_skip1 mi
    if ¬ miter_valid mi1 then mi1
    else if u0 ∧ (mhGet mi1 1).rank = r0 then mi1
    else
      match (mhGet mi1 1).cur with
      | some rc =>
        if kref_compare k0 rc.key = .eq then miter_skip_unique_loop fuel k0 r0 u0 mi1 else mi1
      | none => mi1

/-- `miter_skip_unique` (kv.c): retain the current key and top stream,
then skip past every duplicate of the key. -/
def miter_skip_unique (mi : Miter) : Miter :=
  if ¬ miter_valid mi then mi
  else
    match (mhGet mi 1).cur with
    | none => mi
    | some r0c =>
      miter_skip_unique_loop (totalRemaining mi + 1) r0c.key (mhGet mi 1).rank (mhGet mi 1).uniq mi

/-- The loop of `xdb_iter_skip_ts` (xdb.c): while the current record is a
tombstone, `miter_skip_unique`. -/
def xdb_iter_skip_ts_loop : Nat → Miter → Miter
  | 0, mi => mi
  | fuel + 1, mi =>
    match miter_kvref mi with
    | none => mi
    | some r =>
      if r.vlen = SST_VLEN_TS then xdb_iter_skip_ts_loop fuel (miter_skip_unique mi) else mi

/-- `xdb_iter_skip_ts` (xdb.c). -/
def xdb_iter_skip_ts (mi : Miter) : Miter := xdb_iter_skip_ts_loop (totalRemaining mi + 1) mi

/-- `xdb_iter_seek` (xdb.c): `miter_seek` then skip tombstones. -/
def xdb_iter_seek (mi : Miter) (k : Bytes) : Miter := xdb_iter_skip_ts (miter_seek mi k)

/-- `xdb_iter_skip1` (xdb.c): `miter_skip_unique` then skip tombstones. -/
def xdb_iter_skip1 (mi : Miter) : Miter := xdb_iter_skip_ts (miter_skip_unique mi)

/-- `xdb_iter_miter_ref` (xdb.c) for a compacting view: the SSTable
version iterator is added first (rank 0), then the IMT (rank 1), then the
WMT (rank 2); all three apis iterate unique keys (`kvmap_api_wormhole` and
`kvmap_api_whunsafe` declare `.unique = true`; `kvmap_api_msstv_ts` is
modelled from the spec §4.5 as standard ordered unique iteration). -/
def xdb_iter_miter (sstRecs imtRecs wmtRecs : List Rec) : Miter :=
  { nway := 3
    mh := [⟨sstRecs, 0, 0, true⟩, ⟨imtRecs, 0, 1, true⟩, ⟨wmtRecs, 0, 2, true⟩] }

/-- The records an iteration yields: the current record at each valid
state, advancing with `xdb_iter_skip1`. -/
def xdbYields : Nat → Miter → List Rec
  | 0, _ => []
  | n + 1, mi =>
    if miter_valid mi then
      match miter_kvref mi with
      | some r => r :: xdbYields n (xdb_iter_skip1 mi)
      | none => []
    else []

/-- The states an iteration passes through (the state at each of the first
`n` yield points). -/
def xdbStates : Nat → Miter → List Miter
  | 0, _ => []
  | n + 1, mi => mi :: xdbStates n (xdb_iter_skip1 mi)

/-- The top record is, among the current records of all streams of the
miter, the one from the highest-rank stream holding the top key: every
other stream whose current record carries the same key has strictly lower
rank. -/
def topMaxRank (mi : Miter) : Prop :=
  ∀ i, 2 ≤ i → i ≤ mi.nway →
    ∀ r, (mhGet mi i).cur = some r → ∀ rt, (mhGet mi 1).cur = some rt →
      r.key = rt.key → (mhGet mi i).rank < (mhGet mi 1).rank

/-- A stream's backing records are in strictly increasing key order (the
ordered-iterator contract of every `kvmap_api` source). -/
def sortedRecs (s : MStream) : Prop := s.recs.Pairwise (fun a b => keyLt a.key b.key)

/-- The heap property of a three-stream miter: neither child would swap
with the top (children with exhausted iterators are unconstrained, as the
up-sift skips them). -/
def heapOK3 (x y z : MStream) : Prop :=
  (y.cur ≠ none → miter_should_swap x y = false) ∧
  (z.cur ≠ none → miter_should_swap x z = false)

/-- The reachable-state invariant of the three-stream xdb iterator: three
streams with sorted records, pairwise distinct ranks (as assigned by
`miter_stream_add`), and the heap property. -/
def Inv3 (mi : Miter) : Prop :=
  mi.nway = 3 ∧ ∃ x y z, mi.mh = [x, y, z] ∧
    (∀ s ∈ mi.mh, sortedRecs s) ∧
    mi.mh.Pairwise (fun a b => a.rank ≠ b.rank) ∧
    heapOK3 x y z

/-- Every stream's current key is at least `k`. -/
def allKeysGe (mi : Miter) (k : Bytes) : Prop :=
  ∀ s ∈ mi.mh, ∀ r, s.cur = some r → ¬ keyLt r.key k

/-- The stream with rank `r0` has advanced strictly past the retained key
`k0`. -/
def rankPast (mi : Miter) (r0 : Nat) (k0 : Bytes) : Prop :=
  ∀ s ∈ mi.mh, s.rank = r0 → ∀ r, s.cur = some r → keyLt k0 r.key

/-- The stream with rank `r0` either still sits on top at the retained key
`k0`, or has advanced strictly past it. -/
def rankAtTopOrPast (mi : Miter) (r0 : Nat) (k0 : Bytes) : Prop :=
  ∀ s ∈ mi.mh, s.rank = r0 →
    (mhGet mi 1 = s ∧ ∃ r, s.cur = some r ∧ r.key = k0) ∨
    (∀ r, s.cur = some r → keyLt k0 r.key)

/-- When valid, the iterator's current key lies strictly above `k0`. -/
def topGt (mi : Miter) (k0 : Bytes) : Prop :=
  miter_valid mi = true → ∀ r, (mhGet mi 1).cur = some r → keyLt k0 r.key

/-- When valid, the iterator's current record is not a tombstone. -/
def tsOK (mi : Miter) : Prop :=
  miter_valid mi = true → ∀ r, (mhGet mi 1).cur = some r → r.vlen ≠ SST_VLEN_TS

/-! ## Basic lemmas: the key order and the memtable model -/

theorem kref_compare_self (a : Bytes) : kref_compare a a = .eq := by
  induction a with
  | nil => rfl
  | cons x xs ih => simp [kref_compare, ih]

theorem kref_compare_eq_iff {a b : Bytes} : kref_compare a b = .eq ↔ a = b := by
  constructor
  · intro h
    induction a generalizing b with
    | nil => cases b with
      | nil => rfl
      | cons y ys => simp [kref_compare] at h
    | cons x xs ih =>
      cases b with
      | nil => simp [kref_compare] at h
      | cons y ys =>
        simp only [kref_compare] at h
        split at h
        · exact absurd h (by simp)
        · split at h
          · exact absurd h (by simp)
          · have hxy : x = y := by omega
            rw [hxy, ih h]
  · intro h; subst h; exact kref_compare_self a

theorem kref_compare_gt_iff {a b : Bytes} : kref_compare a b = .gt ↔ kref_compare b a = .lt := by
  induction a generalizing b with
  | nil => cases b <;> simp [kref_compare]
  | cons x xs ih =>
    cases b with
    | nil => simp [kref_compare]
    | cons y ys =>
      simp only [kref_compare]
      rcases Nat.lt_trichotomy x y with h | h | h
      · simp [h, Nat.not_lt_of_lt h]
      · subst h; simp [Nat.lt_irrefl, ih]
      · simp [h, Nat.not_lt_of_lt h]

theorem kref_compare_lt_trans {a b c : Bytes} (h1 : kref_compare a b = .lt)
    (h2 : kref_compare b c = .lt) : kref_compare a c = .lt := by
  induction a generalizing b c with
  | nil =>
    cases c with
    | nil =>
      cases b with
      | nil => exact h1
      | cons y ys => simp [kref_compare] at h2
    | cons z zs => simp [kref_compare]
  | cons x xs ih =>
    cases b with
    | nil => simp [kref_compare] at h1
    | cons y ys =>
      cases c with
      | nil => simp [kref_compare] at h2
      | cons z zs =>
        simp only [kref_compare] at h1 h2 ⊢
        rcases Nat.lt_trichotomy x y with hxy | hxy | hxy
        · rcases Nat.lt_trichotomy y z with hyz | hyz | hyz
          · simp [Nat.lt_trans hxy hyz]
          · subst hyz; simp [hxy]
          · simp [hyz, Nat.not_lt_of_lt hyz] at h2
        · subst hxy
          rcases Nat.lt_trichotomy x z with hyz | hyz | hyz
          · simp [hyz]
          · subst hyz
            simp only [Nat.lt_irrefl, if_false] at h1 h2 ⊢
            exact ih h1 h2
          · simp [hyz, Nat.not_lt_of_lt hyz] at h2
        · simp [hxy, Nat.not_lt_of_lt hxy] at h1

/-- Trichotomy for the key order. -/
theorem kref_compare_cases (a b : Bytes) :
    kref_compare a b = .lt ∨ kref_compare a b = .eq ∨ kref_compare a b = .gt := by
  rcases h : kref_compare a b with _ | _ | _ <;> simp

theorem keyLt_trans {a b c : Bytes} (h1 : keyLt a b) (h2 : keyLt b c) : keyLt a c :=
  kref_compare_lt_trans h1 h2

theorem keyLt_irrefl (a : Bytes) : ¬ keyLt a a := by
  simp [keyLt, kref_compare_self]

theorem keyLt_asymm {a b : Bytes} (h : keyLt a b) : ¬ keyLt b a := by
  intro h2
  exact keyLt_irrefl a (keyLt_trans h h2)

theorem keyLt_of_not_lt_of_ne {a b : Bytes} (h : ¬ keyLt a b) (hne : a ≠ b) : keyLt b a := by
  rcases kref_compare_cases a b with hc | hc | hc
  · exact absurd hc h
  · exact absurd (kref_compare_eq_iff.mp hc) hne
  · exact (kref_compare_gt_iff.mp hc)

theorem mtGet_nil (k : Bytes) : mtGet [] k = none := rfl

theorem mtGet_cons (x : Rec) (xs : Mt) (k : Bytes) :
    mtGet (x :: xs) k = if x.key = k then some x else mtGet xs k := by
  by_cases h : x.key = k
  · simp [mtGet, List.find?_cons_of_pos, h]
  · simp [mtGet, List.find?_cons_of_neg, h]

theorem mtGet_mtPut_self (kv : Rec) (mt : Mt) : mtGet (mtPut kv mt) kv.key = some kv := by
  induction mt with
  | nil => simp [mtPut, mtGet_cons]
  | cons x xs ih =>
    by_cases h : x.key = kv.key
    · simp [mtPut, h, mtGet_cons]
    · simp [mtPut, h, mtGet_cons, ih]

theorem mtGet_mtPut_ne (kv : Rec) (mt : Mt) (k : Bytes) (h : k ≠ kv.key) :
    mtGet (mtPut kv mt) k = mtGet mt k := by
  have hks : ¬ kv.key = k := fun hh => h hh.symm
  induction mt with
  | nil => simp [mtPut, mtGet_cons, mtGet_nil, hks]
  | cons x xs ih =>
    by_cases hx : x.key = kv.key
    · rw [mtPut, if_pos hx, mtGet_cons, mtGet_cons, hx]
      simp [hks]
    · rw [mtPut, if_neg hx, mtGet_cons, mtGet_cons, ih]

theorem mtPut_of_absent (kv : Rec) (mt : Mt) (h : mtGet mt kv.key = none) :
    mtPut kv mt = mt ++ [kv] := by
  induction mt with
  | nil => rfl
  | cons x xs ih =>
    rw [mtGet_cons] at h
    by_cases hx : x.key = kv.key
    · simp [hx] at h
    · rw [if_neg hx] at h
      simp [mtPut, hx, ih h]

theorem mtSizeSum_append (a b : Mt) : mtSizeSum (a ++ b) = mtSizeSum a + mtSizeSum b := by
  simp [mtSizeSum]

/-- Replacing the first record stored under a key exchanges exactly the two
record sizes in the sum. -/
theorem mtSizeSum_mtPut_found (kv r : Rec) (mt : Mt) (h : mtGet mt kv.key = some r) :
    mtSizeSum (mtPut kv mt) + sst_kv_size r = mtSizeSum mt + sst_kv_size kv := by
  induction mt with
  | nil => simp [mtGet_nil] at h
  | cons x xs ih =>
    rw [mtGet_cons] at h
    by_cases hx : x.key = kv.key
    · rw [if_pos hx] at h
      obtain rfl : x = r := by injection h
      simp [mtPut, hx, mtSizeSum]
      omega
    · rw [if_neg hx] at h
      have := ih h
      simp [mtPut, hx, mtSizeSum] at *
      omega

/-- A record found in a memtable contributes to its size sum. -/
theorem sst_kv_size_le_sum (mt : Mt) (k : Bytes) (r : Rec) (h : mtGet mt k = some r) :
    sst_kv_size r ≤ mtSizeSum mt := by
  induction mt with
  | nil => simp [mtGet_nil] at h
  | cons x xs ih =>
    rw [mtGet_cons] at h
    by_cases hx : x.key = k
    · rw [if_pos hx] at h
      obtain rfl : x = r := by injection h
      simp [mtSizeSum]
    · rw [if_neg hx] at h
      have := ih h
      simp [mtSizeSum] at *; omega

theorem kv_create_key (k v : Bytes) : (kv_create k v).key = k := by
  simp [kv_create, Rec.key]

theorem kv_create_val (k v : Bytes) : (kv_create k v).val = v := by
  simp [kv_create, Rec.val]

theorem xdb_new_ts_key (k : Bytes) (h32 : Nat) : (xdb_new_ts k h32).key = k := by
  simp [xdb_new_ts, Rec.key]

/-! ## Claims C1, C2: put/get and put/del round trips -/

/-- C1.  For every legal key `K` and value `V` (`klen + vlen ≤ 65500`), a
`put(K, V)` that returns true followed by `get(K)` with no intervening
write to `K` returns exactly `V`; and whichever layer the written record
is found in — WMT, IMT, or the SSTable version (after migration by view
rotation or compaction) — `get(K)` returns exactly `V`. -/
theorem c1_put_get (db : Xdb) (k v : Bytes) (h : k.length + v.length ≤ 65500) :
    (xdb_put db k v).fst = true ∧
    ((xdb_get (xdb_put db k v).snd k).map Rec.val = some v) ∧
    (∀ db2 : Xdb,
      (mtGet db2.wmt k = some (kv_create k v) ∨
       (mtGet db2.wmt k = none ∧
         ∃ imt, db2.imt = some imt ∧ mtGet imt k = some (kv_create k v)) ∨
       (mtGet db2.wmt k = none ∧ (∀ imt, db2.imt = some imt → mtGet imt k = none) ∧
         mtGet db2.sst k = some (kv_create k v))) →
      (xdb_get db2 k).map Rec.val = some v) := by
  have hvlen : (kv_create k v).vlen ≠ SST_VLEN_TS := by
    simp only [kv_create, SST_VLEN_TS]
    omega
  have hget : xdb_inp_get (kv_create k v) = some (kv_create k v) := by
    simp [xdb_inp_get, hvlen]
  refine ⟨rfl, ?_, ?_⟩
  · have hw : mtGet (xdb_put db k v).snd.wmt k = some (kv_create k v) := by
      have := mtGet_mtPut_self (kv_create k v) db.wmt
      rw [kv_create_key] at this
      simpa [xdb_put, xdb_update] using this
    simp [xdb_get, hw, hget, kv_create_val]
  · intro db2 hdb2
    rcases hdb2 with hw | ⟨hw, imt, himt, hi⟩ | ⟨hw, hi, hs⟩
    · simp [xdb_get, hw, hget, kv_create_val]
    · simp [xdb_get, hw, himt, hi, hget, kv_create_val]
    · have hsst : msstv_get_ts db2.sst k = some (kv_create k v) := by
        simp [msstv_get_ts, hs, hvlen]
      cases himt2 : db2.imt with
      | none => simp [xdb_get, hw, himt2, hsst, kv_create_val]
      | some imt => simp [xdb_get, hw, himt2, hi imt himt2, hsst, kv_create_val]

/-- Witness for C1 on a concrete database. -/
theorem c1_put_get_witness :
    [1].length + [2].length ≤ 65500 ∧
    ((xdb_get (xdb_put ⟨[], none, [], 0, []⟩ [1] [2]).snd [1]).map Rec.val = some [2]) :=
  ⟨by decide, (c1_put_get ⟨[], none, [], 0, []⟩ [1] [2] (by decide)).2.1⟩

/-- C2.  For every legal key `K` and value `V`, after `put(K, V)` and then
`del(K)` both return true and no later write touches `K`, `probe(K)`
returns `false` and `get(K)` returns none; and the tombstone record
written by `del` is never surfaced to the caller from any layer (WMT,
IMT, or SSTable version). -/
theorem c2_put_del_probe (db : Xdb) (k v : Bytes) (_h : k.length + v.length ≤ 65500) :
    (xdb_put db k v).fst = true ∧
    (xdb_del (xdb_put db k v).snd k).fst = true ∧
    xdb_probe (xdb_del (xdb_put db k v).snd k).snd k = false ∧
    xdb_get (xdb_del (xdb_put db k v).snd k).snd k = none ∧
    (∀ db3 : Xdb,
      (mtGet db3.wmt k = some (xdb_new_ts k (kv_crc32c k)) ∨
       (mtGet db3.wmt k = none ∧
         ∃ imt, db3.imt = some imt ∧ mtGet imt k = some (xdb_new_ts k (kv_crc32c k))) ∨
       (mtGet db3.wmt k = none ∧ (∀ imt, db3.imt = some imt → mtGet imt k = none) ∧
         mtGet db3.sst k = some (xdb_new_ts k (kv_crc32c k)))) →
      xdb_probe db3 k = false ∧ xdb_get db3 k = none) := by
  have hts : (xdb_new_ts k (kv_crc32c k)).vlen = SST_VLEN_TS := rfl
  have hw : mtGet (xdb_del (xdb_put db k v).snd k).snd.wmt k
      = some (xdb_new_ts k (kv_crc32c k)) := by
    have := mtGet_mtPut_self (xdb_new_ts k (kv_crc32c k)) (xdb_put db k v).snd.wmt
    rw [xdb_new_ts_key] at this
    simpa [xdb_del, xdb_update] using this
  refine ⟨rfl, rfl, ?_, ?_, ?_⟩
  · simp [xdb_probe, hw, hts]
  · simp [xdb_get, hw, xdb_inp_get, hts]
  · intro db3 hdb3
    rcases hdb3 with hw3 | ⟨hw3, imt, himt, hi⟩ | ⟨hw3, hi, hs⟩
    · constructor
      · simp [xdb_probe, hw3, hts]
      · simp [xdb_get, hw3, xdb_inp_get, hts]
    · constructor
      · simp [xdb_probe, hw3, himt, hi, hts]
      · simp [xdb_get, hw3, himt, hi, xdb_inp_get, hts]
    · have hsst : msstv_get_ts db3.sst k = none := by
        simp [msstv_get_ts, hs, hts]
      have hsstp : msstv_probe_ts db3.sst k = false := by
        rw [msstv_probe_ts, hs]
        simp [hts]
      constructor
      · cases himt2 : db3.imt with
        | none => simp [xdb_probe, hw3, himt2, hsstp]
        | some imt => simp [xdb_probe, hw3, himt2, hi imt himt2, hsstp]
      · cases himt2 : db3.imt with
        | none => simp [xdb_get, hw3, himt2, hsst]
        | some imt => simp [xdb_get, hw3, himt2, hi imt himt2, hsst]

/-- Witness for C2 on a concrete database. -/
theorem c2_put_del_probe_witness :
    [1].length + [2].length ≤ 65500 ∧
    xdb_probe (xdb_del (xdb_put ⟨[], none, [], 0, []⟩ [1] [2]).snd [1]).snd [1] = false :=
  ⟨by decide, (c2_put_del_probe ⟨[], none, [], 0, []⟩ [1] [2] (by decide)).2.2.1⟩

/-! ## Claim C6: `mtsz` accounting invariant -/

/-- The invariant `mtsz = Σ sst_kv_size(rec) over the WMT` is preserved by
every `mtsz`-relevant event. -/
theorem mtStep_preserves_sum (s : Mt × Nat) (op : MtOp) (h : s.2 = mtSizeSum s.1) :
    (mtStep s op).2 = mtSizeSum (mtStep s op).1 := by
  rcases s with ⟨mt, sz⟩
  cases op with
  | update kv =>
    simp only [mtStep]
    cases hfind : mtGet mt kv.key with
    | none =>
      rw [mtPut_of_absent kv mt hfind, mtSizeSum_append]
      simp [mtSizeSum] at h ⊢
      omega
    | some r =>
      have hsum := mtSizeSum_mtPut_found kv r mt hfind
      have hle := sst_kv_size_le_sum mt kv.key r hfind
      simp at h ⊢
      omega
  | reinsert kv =>
    simp only [mtStep]
    cases hfind : mtGet mt kv.key with
    | none =>
      rw [mtPut_of_absent kv mt hfind, mtSizeSum_append]
      simp [mtSizeSum] at h ⊢
      omega
    | some r => exact h
  | recover kv =>
    simp only [mtStep]
    cases hfind : mtGet mt kv.key with
    | none =>
      rw [mtPut_of_absent kv mt hfind, mtSizeSum_append]
      simp [mtSizeSum] at h ⊢
      omega
    | some r =>
      have hsum := mtSizeSum_mtPut_found kv r mt hfind
      have hle := sst_kv_size_le_sum mt kv.key r hfind
      simp at h ⊢
      omega
  | rotate => rfl

/-- C6.  Starting from an empty WMT (`mtsz = 0`), after any sequence of
put/del/merge updates, reinsertions, recovery updates and view rotations,
the counter `mtsz` equals the sum of `sst_kv_size` over the records of the
WMT: each update adds `size(new) − size(old)`, a reinsertion adds the full
size only when it inserts, and rotation adopts an empty WMT with
`mtsz = 0`. -/
theorem c6_mtsz_invariant (ops : List MtOp) :
    (ops.foldl mtStep ([], 0)).2 = mtSizeSum (ops.foldl mtStep ([], 0)).1 := by
  suffices hgen : ∀ (ops : List MtOp) (s : Mt × Nat), s.2 = mtSizeSum s.1 →
      (ops.foldl mtStep s).2 = mtSizeSum (ops.foldl mtStep s).1 by
    exact hgen ops ([], 0) rfl
  intro ops
  induction ops with
  | nil => intro s h; exact h
  | cons op rest ih =>
    intro s h
    exact ih (mtStep s op) (mtStep_preserves_sum s op h)

/-! ## Claim C7: public-API size limits -/

/-- Counterexample to C7 as stated: `remixdb_del` performs no size check,
so a delete whose `klen` alone exceeds 65500 still returns `true` (and
proceeds to write a tombstone) instead of failing. -/
theorem c7_del_oversize_accepted :
    (List.replicate 65501 (0 : Nat)).length > 65500 ∧
    (remixdb_del ⟨[], none, [], 0, []⟩ (List.replicate 65501 (0 : Nat))).fst = true := by
  constructor
  · rw [List.length_replicate]; omega
  · rfl

/-- C7, amended.  `remixdb_put` rejects a request exactly when the u32 sum
`klen + vlen` exceeds 65500, before any state change, and accepts the
boundary `klen + vlen = 65500`; `remixdb_del`, however, performs no size
check and succeeds for any key length. -/
theorem c7_put_bound_del_unchecked :
    (∀ (db : Xdb) (k v : Bytes), (k.length + v.length) % 2 ^ 32 > 65500 →
      remixdb_put db k v = (false, db)) ∧
    (∀ (db : Xdb) (k v : Bytes), (k.length + v.length) % 2 ^ 32 ≤ 65500 →
      (remixdb_put db k v).fst = true) ∧
    (∀ (db : Xdb) (k : Bytes), (remixdb_del db k).fst = true) := by
  refine ⟨?_, ?_, ?_⟩
  · intro db k v h
    rw [remixdb_put, if_pos h]
  · intro db k v h
    rw [remixdb_put, if_neg (by omega)]
  · intro db k; rfl

/-- Witness for the amended C7 at the boundary and beyond it. -/
theorem c7_put_bound_del_unchecked_witness :
    remixdb_put ⟨[], none, [], 0, []⟩ (List.replicate 65501 (0 : Nat)) [] =
      (false, ⟨[], none, [], 0, []⟩) ∧
    (remixdb_put ⟨[], none, [], 0, []⟩ (List.replicate 65500 (0 : Nat)) []).fst = true ∧
    (remixdb_del ⟨[], none, [], 0, []⟩ [7]).fst = true :=
  ⟨c7_put_bound_del_unchecked.1 ⟨[], none, [], 0, []⟩ _ []
     (by rw [List.length_replicate]; norm_num),
   c7_put_bound_del_unchecked.2.1 ⟨[], none, [], 0, []⟩ _ []
     (by rw [List.length_replicate]; norm_num),
   c7_put_bound_del_unchecked.2.2 ⟨[], none, [], 0, []⟩ [7]⟩

/-! ## Claim C4: compaction durability ordering -/

theorem comp_trace_get (nrej i : Nat) :
    (xdb_do_comp_trace nrej).get? i =
      if i < 6 then compTracePre.get? i
      else if i < 6 + nrej then some (.reinsertAppend (i - 6))
      else compTracePost.get? (i - (6 + nrej)) := by
  have hpre : compTracePre.length = 6 := rfl
  have hmap : ((List.range nrej).map CompEvent.reinsertAppend).length = nrej := by simp
  unfold xdb_do_comp_trace
  by_cases h1 : i < 6
  · rw [if_pos h1, List.get?_append (by simp [hpre]; omega), List.get?_append (by omega)]
  · rw [if_neg h1]
    by_cases h2 : i < 6 + nrej
    · rw [if_pos h2, List.get?_append (by simp [hpre]; omega),
        List.get?_append_right (by omega), hpre, List.get?_map,
        List.get?_range (by omega)]
      rfl
    · rw [if_neg h2, List.get?_append_right (by simp [hpre]; omega)]
      congr 1
      simp [hpre]

theorem compTracePre_events (i : Nat) (e : CompEvent) (h : compTracePre.get? i = some e) :
    e = .lockAcquire ∨ e = .viewSwitchToComp ∨ e = .walSwitch ∨ e = .lockRelease ∨
      e = .qsbrWait ∨ e = .msstzComp := by
  have hi : i < 6 := by
    by_contra hi
    rw [List.get?_eq_none.mpr (by simp [compTracePre]; omega)] at h
    cases h
  interval_cases i <;> simp [compTracePre] at h <;> simp [h]

theorem compTracePost_idx (k : Nat) (e : CompEvent) (h : compTracePost.get? k = some e) :
    (e = .newWalFlushSync → k = 1) ∧ (e = .newWalIoComplete → k = 8) ∧
      (e = .truncateOldWal → k = 10) ∧ (∀ m, e ≠ .reinsertAppend m) := by
  have hk : k < 12 := by
    by_contra hk
    rw [List.get?_eq_none.mpr (by simp [compTracePost]; omega)] at h
    cases h
  interval_cases k <;> simp [compTracePost] at h <;> subst h <;> simp

theorem trace_idx_flushSync (nrej i : Nat)
    (h : (xdb_do_comp_trace nrej).get? i = some CompEvent.newWalFlushSync) :
    i = 7 + nrej := by
  rw [comp_trace_get] at h
  split_ifs at h with h1 h2
  · rcases compTracePre_events i _ h with h3 | h3 | h3 | h3 | h3 | h3 <;> cases h3
  · cases h
  · have := (compTracePost_idx _ _ h).1 rfl
    omega

theorem trace_idx_ioComplete (nrej i : Nat)
    (h : (xdb_do_comp_trace nrej).get? i = some CompEvent.newWalIoComplete) :
    i = 14 + nrej := by
  rw [comp_trace_get] at h
  split_ifs at h with h1 h2
  · rcases compTracePre_events i _ h with h3 | h3 | h3 | h3 | h3 | h3 <;> cases h3
  · cases h
  · have := (compTracePost_idx _ _ h).2.1 rfl
    omega

theorem trace_idx_truncate (nrej i : Nat)
    (h : (xdb_do_comp_trace nrej).get? i = some CompEvent.truncateOldWal) :
    i = 16 + nrej := by
  rw [comp_trace_get] at h
  split_ifs at h with h1 h2
  · rcases compTracePre_events i _ h with h3 | h3 | h3 | h3 | h3 | h3 <;> cases h3
  · cases h
  · have := (compTracePost_idx _ _ h).2.2.1 rfl
    omega

theorem trace_idx_append (nrej i m : Nat)
    (h : (xdb_do_comp_trace nrej).get? i = some (CompEvent.reinsertAppend m)) :
    6 ≤ i ∧ i < 6 + nrej := by
  rw [comp_trace_get] at h
  split_ifs at h with h1 h2
  · rcases compTracePre_events i _ h with h3 | h3 | h3 | h3 | h3 | h3 <;> cases h3
  · omega
  · exact absurd rfl ((compTracePost_idx _ _ h).2.2.2 m)

/-- C4.  In the `xdb_do_comp` event trace of every compaction run: the
retired WAL is truncated (and then fdatasync'd) strictly after
`wal_io_complete` has waited for the new-WAL fsync, which is strictly
after `wal_flush_sync` submitted the new-WAL flush+fsync, which in turn is
strictly after every re-append of a rejected key to the new WAL. -/
theorem c4_truncate_after_new_wal_fsync (nrej : Nat) :
    (∀ i j, (xdb_do_comp_trace nrej).get? i = some CompEvent.newWalIoComplete →
      (xdb_do_comp_trace nrej).get? j = some CompEvent.truncateOldWal → i < j) ∧
    (∀ i j, (xdb_do_comp_trace nrej).get? i = some CompEvent.newWalFlushSync →
      (xdb_do_comp_trace nrej).get? j = some CompEvent.newWalIoComplete → i < j) ∧
    (∀ i j m, (xdb_do_comp_trace nrej).get? i = some (CompEvent.reinsertAppend m) →
      (xdb_do_comp_trace nrej).get? j = some CompEvent.newWalFlushSync → i < j) := by
  refine ⟨?_, ?_, ?_⟩
  · intro i j hi hj
    have := trace_idx_ioComplete nrej i hi
    have := trace_idx_truncate nrej j hj
    omega
  · intro i j hi hj
    have := trace_idx_flushSync nrej i hi
    have := trace_idx_ioComplete nrej j hj
    omega
  · intro i j m hi hj
    have := trace_idx_append nrej i m hi
    have := trace_idx_flushSync nrej j hj
    omega

/-- Witness for C4 on a run with one rejected key. -/
theorem c4_truncate_after_new_wal_fsync_witness :
    (xdb_do_comp_trace 1).get? 15 = some CompEvent.newWalIoComplete ∧
    (xdb_do_comp_trace 1).get? 17 = some CompEvent.truncateOldWal ∧ 15 < 17 :=
  ⟨by decide, by decide,
    (c4_truncate_after_new_wal_fsync 1).1 15 17 (by decide) (by decide)⟩

/-! ## Claim C8: WAL version reconciliation on recovery -/

/-- Counterexample to C8 as stated: with two equal non-zero WAL versions,
`xdb_wal_recover` hits `debug_die()` (no replay plan at all) instead of
replaying both files. -/
theorem c8_equal_versions_die : xdb_wal_recover_plan 5 5 = none := rfl

/-- C8, amended.  When both WAL files carry a non-zero version header and
the versions differ, the file with the strictly greater version is
selected as the current one and the older file is replayed before it;
equal non-zero versions abort recovery (`debug_die`) instead of replaying
both files. -/
theorem c8_version_selection (v1 v2 : Nat) (h1 : v1 ≠ 0) (h2 : v2 ≠ 0) :
    (v1 < v2 → xdb_wal_recover_plan v1 v2 = some ⟨1, [0, 1]⟩) ∧
    (v2 < v1 → xdb_wal_recover_plan v1 v2 = some ⟨0, [1, 0]⟩) ∧
    (v1 = v2 → xdb_wal_recover_plan v1 v2 = none) := by
  refine ⟨?_, ?_, ?_⟩
  · intro hlt
    have hne : ¬ v1 = v2 := by omega
    simp [xdb_wal_recover_plan, h1, h2, hlt, hne]
  · intro hlt
    have hnlt : ¬ v1 < v2 := by omega
    have hne : ¬ v1 = v2 := by omega
    simp [xdb_wal_recover_plan, h1, h2, hnlt, hne]
  · intro heq
    simp [xdb_wal_recover_plan, h1, h2, heq]

/-- Witness for the amended C8. -/
theorem c8_version_selection_witness :
    xdb_wal_recover_plan 2 3 = some ⟨1, [0, 1]⟩ :=
  (c8_version_selection 2 3 (by decide) (by decide)).1 (by decide)

/-! ## Claims C9, C10: WAL decode safety -/

/-- C10.  `wal_vi128_decode` is *not* in-bounds on arbitrary input: on a
buffer of five continuation bytes followed by two terminator bytes the
two-terminator guard passes, the first `vi128_decode_u32` exhausts its five
byte budget and returns `NULL`, and the code dereferences that `NULL` as
the source pointer of the second varint — a read outside the buffer. -/
theorem c10_decode_null_deref :
    wal_vi128_decode [0x80, 0x80, 0x80, 0x80, 0x80, 0x00, 0x00] 0 = .fault := by
  decide

/-- C9.  WAL replay does *not* always halt gracefully at a bad record: on
a file whose first record after the 8-byte version header consists of five
continuation bytes and two zero bytes, `xdb_recover_fd` inherits the
`NULL` dereference of `wal_vi128_decode` instead of halting and discarding
the tail. -/
theorem c9_recover_faults :
    xdb_recover_fd [1, 0, 0, 0, 0, 0, 0, 0, 0x80, 0x80, 0x80, 0x80, 0x80, 0x00, 0x00] [] 0
      = .fault := by
  decide

/-! ## Claim C5: reinsertion of rejected partitions -/

theorem keyLt_of_keyLt_of_nGt {a b c : Bytes} (h1 : keyLt a b)
    (h2 : kref_compare b c ≠ .gt) : keyLt a c := by
  rcases kref_compare_cases b c with hc | hc | hc
  · exact keyLt_trans h1 hc
  · rwa [← kref_compare_eq_iff.mp hc]
  · exact absurd hc h2

theorem keyLt_of_nGt_of_keyLt {a b c : Bytes} (h1 : kref_compare a b ≠ .gt)
    (h2 : keyLt b c) : keyLt a c := by
  rcases kref_compare_cases a b with hc | hc | hc
  · exact keyLt_trans hc h2
  · rwa [kref_compare_eq_iff.mp hc]
  · exact absurd hc h1

theorem nGt_of_keyLt {a b : Bytes} (h : keyLt a b) : kref_compare a b ≠ .gt := by
  rw [h]; simp

theorem keyLt_ne {a b : Bytes} (h : keyLt a b) : a ≠ b := by
  intro he
  subst he
  exact keyLt_irrefl a h

theorem lowerBound_le_length (l : List Rec) (k : Bytes) : lowerBound l k ≤ l.length := by
  induction l with
  | nil => simp [lowerBound]
  | cons r rs ih =>
    simp only [lowerBound]
    split
    · simpa using ih
    · simp

/-- Every entry before the seek position of `k` has key strictly below
`k`. -/
theorem keyLt_of_lt_lowerBound (l : List Rec) (k : Bytes) (i : Nat) (hi : i < l.length)
    (h : i < lowerBound l k) : keyLt (l.get ⟨i, hi⟩).key k := by
  induction l generalizing i with
  | nil => simp at hi
  | cons r rs ih =>
    simp only [lowerBound] at h
    split at h
    · cases i with
      | zero => simpa [keyLt] using ‹kref_compare r.key k = .lt›
      | succ j => exact ih j (by simpa using hi) (by omega)
    · omega

/-- In a key-sorted list, every entry at or after the seek position of `k`
has key not below `k`. -/
theorem not_keyLt_of_lowerBound_le (l : List Rec) (k : Bytes) (i : Nat)
    (hs : l.Pairwise (fun x y => keyLt x.key y.key)) (hi : i < l.length)
    (h : lowerBound l k ≤ i) : ¬ keyLt (l.get ⟨i, hi⟩).key k := by
  induction l generalizing i with
  | nil => simp at hi
  | cons r rs ih =>
    simp only [lowerBound] at h
    rcases List.pairwise_cons.mp hs with ⟨hr, hrs⟩
    split at h
    · cases i with
      | zero => omega
      | succ j => exact ih j hrs (by simpa using hi) (by omega)
    · rename_i hnlt
      cases i with
      | zero => simpa [keyLt] using hnlt
      | succ j =>
        intro hlt
        have hj : j < rs.length := by simpa using hi
        have hmem : rs.get ⟨j, hj⟩ ∈ rs := List.get_mem rs _ _
        have := hr _ hmem
        exact hnlt (keyLt_trans this hlt)

/-- Seek positions are monotone in the key. -/
theorem lowerBound_mono (l : List Rec) (k1 k2 : Bytes) (h : kref_compare k1 k2 ≠ .gt) :
    lowerBound l k1 ≤ lowerBound l k2 := by
  induction l with
  | nil => simp [lowerBound]
  | cons r rs ih =>
    simp only [lowerBound]
    by_cases h1 : kref_compare r.key k1 = .lt
    · have h2 : kref_compare r.key k2 = .lt := keyLt_of_keyLt_of_nGt h1 h
      rw [if_pos h1, if_pos h2]
      omega
    · rw [if_neg h1]
      omega

/-- The inner loop of `xdb_reinsert_rejected` processes exactly the IMT
records from its start position up to the stop position. -/
theorem reinsertLoop_eq_foldl (imt : List Rec) (e : Option Nat) (st : RSt) (j stop : Nat)
    (hstop : stop = match e with | some x => x | none => imt.length)
    (hsle : stop ≤ imt.length) (hj : j ≤ stop) :
    reinsertLoop imt e st j = ((imt.drop j).take (stop - j)).foldl xdb_mt_reinsert_step st := by
  obtain ⟨n, hn⟩ : ∃ n, stop - j = n := ⟨_, rfl⟩
  induction n generalizing j st with
  | zero =>
    have hje : j = stop := by omega
    subst hje
    rw [Nat.sub_self, List.take_zero, List.foldl_nil, reinsertLoop]
    by_cases hlt : j < imt.length
    · rw [dif_pos hlt]
      cases e with
      | none => simp at hstop; omega
      | some x =>
        have : x = j := by simp at hstop; omega
        subst this
        simp
    · rw [dif_neg hlt]
  | succ n ih =>
    have hjlt : j < stop := by omega
    have hjlen : j < imt.length := by omega
    have hne : ¬ (e = some j) := by
      cases e with
      | none => simp
      | some x => simp at hstop ⊢; omega
    rw [reinsertLoop, dif_pos hjlen, if_neg hne,
      ih (xdb_mt_reinsert_step st (imt.get ⟨j, hjlen⟩)) (j + 1) (by omega) (by omega),
      List.drop_eq_get_cons hjlen]
    have h1 : stop - j = (stop - (j + 1)) + 1 := by omega
    rw [h1, List.take_succ_cons, List.foldl_cons]

/-- One anchor of the outer loop processes exactly its slice. -/
theorem reinsertAnchor_eq_foldl (imt anchors : List Rec) (i : Nat) (a : Rec) (st : RSt)
    (hle : lowerBound imt a.key ≤ reinsertStop imt anchors i) :
    reinsertAnchor imt anchors i a st
      = (procSlice imt anchors i a).foldl xdb_mt_reinsert_step st := by
  unfold reinsertAnchor procSlice
  by_cases hv : a.vlen = 0
  · simp [hv]
  · rw [if_neg hv, if_neg hv]
    cases haz : anchors.get? (i + 1) with
    | some az =>
      have hstop : reinsertStop imt anchors i = lowerBound imt az.key := by
        unfold reinsertStop; rw [haz]
      simp only [haz]
      by_cases he : lowerBound imt az.key < imt.length
      · rw [if_pos he, hstop]
        exact reinsertLoop_eq_foldl imt (some (lowerBound imt az.key)) st _ _ rfl
          (by omega) (by omega)
      · have heq : lowerBound imt az.key = imt.length := by
          have := lowerBound_le_length imt az.key
          omega
        rw [if_neg he, hstop, heq]
        exact reinsertLoop_eq_foldl imt none st _ _ rfl (by omega) (by omega)
    | none =>
      have hstop : reinsertStop imt anchors i = imt.length := by
        unfold reinsertStop; rw [haz]
      simp only [haz]
      rw [hstop]
      exact reinsertLoop_eq_foldl imt none st _ _ rfl (by omega)
        (by rw [← hstop]; omega)

/-- In a key-sorted anchor list, anchor keys are monotone in the index. -/
theorem anchors_nGt (anchors : List Rec)
    (hanc : anchors.Pairwise (fun x y => keyLt x.key y.key)) (p q : Nat) (hpq : p ≤ q)
    (x y : Rec) (hx : anchors.get? p = some x) (hy : anchors.get? q = some y) :
    kref_compare x.key y.key ≠ .gt := by
  rcases List.get?_eq_some.mp hx with ⟨hp, hgx⟩
  rcases List.get?_eq_some.mp hy with ⟨hq, hgy⟩
  rcases Nat.lt_or_ge p q with hlt | hge
  · have := (List.pairwise_iff_get.mp hanc) ⟨p, hp⟩ ⟨q, hq⟩ hlt
    rw [hgx, hgy] at this
    exact nGt_of_keyLt this
  · have hpqe : p = q := by omega
    subst hpqe
    rw [hx] at hy
    obtain rfl : x = y := by injection hy
    rw [kref_compare_self]
    simp

theorem reinsertAnchors_none (imt anchors : List Rec) (st : RSt) (i : Nat)
    (h : anchors.get? i = none) : reinsertAnchors imt anchors st i = st := by
  rw [reinsertAnchors.eq_def]
  split
  · rfl
  · rename_i a heq; rw [h] at heq; cases heq

theorem reinsertAnchors_some (imt anchors : List Rec) (st : RSt) (i : Nat) (a : Rec)
    (h : anchors.get? i = some a) :
    reinsertAnchors imt anchors st i
      = reinsertAnchors imt anchors (reinsertAnchor imt anchors i a st) (i + 1) := by
  rw [reinsertAnchors.eq_def]
  split
  · rename_i heq; rw [h] at heq; cases heq
  · rename_i b heq
    rw [h] at heq
    injection heq with heq
    rw [heq]

theorem procAll_none (imt anchors : List Rec) (i : Nat) (h : anchors.get? i = none) :
    procAll imt anchors i = [] := by
  rw [procAll.eq_def]
  split
  · rfl
  · rename_i a heq; rw [h] at heq; cases heq

theorem procAll_some (imt anchors : List Rec) (i : Nat) (a : Rec)
    (h : anchors.get? i = some a) :
    procAll imt anchors i = procSlice imt anchors i a ++ procAll imt anchors (i + 1) := by
  rw [procAll.eq_def]
  split
  · rename_i heq; rw [h] at heq; cases heq
  · rename_i b heq
    rw [h] at heq
    injection heq with heq
    rw [heq]

/-- The outer loop of `xdb_reinsert_rejected` processes exactly the
concatenation of the per-anchor slices. -/
theorem reinsertAnchors_eq_foldl (imt anchors : List Rec)
    (hanc : anchors.Pairwise (fun x y => keyLt x.key y.key)) (st : RSt) (i : Nat) :
    reinsertAnchors imt anchors st i
      = (procAll imt anchors i).foldl xdb_mt_reinsert_step st := by
  obtain ⟨n, hn⟩ : ∃ n, anchors.length - i = n := ⟨_, rfl⟩
  induction n generalizing i st with
  | zero =>
    have hnone : anchors.get? i = none := List.get?_eq_none.mpr (by omega)
    rw [reinsertAnchors_none imt anchors st i hnone, procAll_none imt anchors i hnone]
    rfl
  | succ n ih =>
    cases ha : anchors.get? i with
    | none =>
      rw [reinsertAnchors_none imt anchors st i ha, procAll_none imt anchors i ha]
      rfl
    | some a =>
      rcases List.get?_eq_some.mp ha with ⟨hilt, _⟩
      rw [reinsertAnchors_some imt anchors st i a ha, procAll_some imt anchors i a ha,
        List.foldl_append,
        ← reinsertAnchor_eq_foldl imt anchors i a st ?hle]
      · exact ih (reinsertAnchor imt anchors i a st) (i + 1) (by omega)
      case hle =>
        unfold reinsertStop
        cases haz : anchors.get? (i + 1) with
        | some az =>
          exact lowerBound_mono imt a.key az.key
            (anchors_nGt anchors hanc i (i + 1) (by omega) a az ha haz)
        | none =>
          exact lowerBound_le_length imt a.key

/-- `xdb_mt_reinsert_func` on a key present in the WMT is a no-op. -/
theorem reinsert_step_present (st : RSt) (c w : Rec) (h : mtGet st.wmt c.key = some w) :
    xdb_mt_reinsert_step st c = st := by
  unfold xdb_mt_reinsert_step
  rw [h]

/-- `xdb_mt_reinsert_func` on an absent key installs the copy, adds its
size to `mtsz`, and appends it to the WAL. -/
theorem reinsert_step_absent (st : RSt) (c : Rec) (h : mtGet st.wmt c.key = none) :
    xdb_mt_reinsert_step st c
      = ⟨mtPut c st.wmt, st.mtsz + sst_kv_size c, st.wal ++ [c]⟩ := by
  unfold xdb_mt_reinsert_step
  rw [h]

/-- Reinsertion only ever appends to the WAL, and `mtsz` grows by exactly
the sizes of the appended records, which are all among the processed
records. -/
theorem rs_foldl_wal (cs : List Rec) (st : RSt) :
    ∃ app, (cs.foldl xdb_mt_reinsert_step st).wal = st.wal ++ app ∧
      (cs.foldl xdb_mt_reinsert_step st).mtsz = st.mtsz + (app.map sst_kv_size).sum ∧
      ∀ w ∈ app, w ∈ cs := by
  induction cs generalizing st with
  | nil => exact ⟨[], by simp⟩
  | cons c cs ih =>
    rw [List.foldl_cons]
    cases hget : mtGet st.wmt c.key with
    | some w =>
      rw [reinsert_step_present st c w hget]
      rcases ih st with ⟨app, hwal, hsz, hmem⟩
      exact ⟨app, hwal, hsz, fun w hw => List.mem_cons_of_mem c (hmem w hw)⟩
    | none =>
      rw [reinsert_step_absent st c hget]
      rcases ih ⟨mtPut c st.wmt, st.mtsz + sst_kv_size c, st.wal ++ [c]⟩
        with ⟨app, hwal, hsz, hmem⟩
      refine ⟨c :: app, ?_, ?_, ?_⟩
      · rw [hwal]
        simp
      · rw [hsz]
        simp [Nat.add_assoc]
      · intro w hw
        rcases List.mem_cons.mp hw with rfl | hw
        · exact List.mem_cons_self _ _
        · exact List.mem_cons_of_mem c (hmem w hw)

/-- A key already present in the WMT keeps its record through any sequence
of reinsertion steps. -/
theorem rs_foldl_present (cs : List Rec) (st : RSt) (k : Bytes) (w : Rec)
    (h : mtGet st.wmt k = some w) :
    mtGet ((cs.foldl xdb_mt_reinsert_step st).wmt) k = some w := by
  induction cs generalizing st with
  | nil => exact h
  | cons c cs ih =>
    rw [List.foldl_cons]
    apply ih
    cases hget : mtGet st.wmt c.key with
    | some w => rw [reinsert_step_present st c w hget]; exact h
    | none =>
      have hne : k ≠ c.key := by
        intro he
        rw [he, hget] at h
        cases h
      rw [reinsert_step_absent st c hget]
      simpa [mtGet_mtPut_ne _ _ _ hne] using h

/-- Reinsertion steps for other keys leave a key's WMT entry unchanged. -/
theorem rs_foldl_untouched (cs : List Rec) (st : RSt) (k : Bytes)
    (h : ∀ c ∈ cs, c.key ≠ k) :
    mtGet ((cs.foldl xdb_mt_reinsert_step st).wmt) k = mtGet st.wmt k := by
  induction cs generalizing st with
  | nil => rfl
  | cons c cs ih =>
    rw [List.foldl_cons, ih _ (fun x hx => h x (List.mem_cons_of_mem c hx))]
    cases hget : mtGet st.wmt c.key with
    | some w => rw [reinsert_step_present st c w hget]
    | none =>
      rw [reinsert_step_absent st c hget]
      exact mtGet_mtPut_ne _ _ _ (fun he => h c (List.mem_cons_self c cs) he.symm)

/-- Processing a record whose key is absent from the WMT and occurs in no
other processed record installs exactly that record and appends it to the
WAL. -/
theorem rs_foldl_insert (cs1 cs2 : List Rec) (r : Rec) (st : RSt)
    (h1 : ∀ c ∈ cs1, c.key ≠ r.key) (h2 : ∀ c ∈ cs2, c.key ≠ r.key)
    (habs : mtGet st.wmt r.key = none) :
    mtGet (((cs1 ++ r :: cs2).foldl xdb_mt_reinsert_step st).wmt) r.key = some r ∧
      r ∈ ((cs1 ++ r :: cs2).foldl xdb_mt_reinsert_step st).wal := by
  rw [List.foldl_append, List.foldl_cons]
  set st1 := cs1.foldl xdb_mt_reinsert_step st with hst1
  have habs1 : mtGet st1.wmt r.key = none := by
    rw [hst1, rs_foldl_untouched cs1 st r.key h1]
    exact habs
  have hstep := reinsert_step_absent st1 r habs1
  constructor
  · apply rs_foldl_present
    rw [hstep]
    exact mtGet_mtPut_self r st1.wmt
  · rcases rs_foldl_wal cs2 (xdb_mt_reinsert_step st1 r) with ⟨app, hwal, _, _⟩
    rw [hwal, hstep]
    simp

/-- Membership in an anchor's slice, index form: every processed record of
anchor `i` sits in the IMT between the anchor's seek position and the stop
position. -/
theorem procSlice_mem (imt anchors : List Rec) (i : Nat) (a : Rec) (c : Rec)
    (hc : c ∈ procSlice imt anchors i a) :
    a.vlen ≠ 0 ∧ ∃ jdx, lowerBound imt a.key ≤ jdx ∧ jdx < reinsertStop imt anchors i ∧
      ∃ hj : jdx < imt.length, imt.get ⟨jdx, hj⟩ = c := by
  unfold procSlice at hc
  by_cases hv : a.vlen = 0
  · rw [if_pos hv] at hc
    cases hc
  · rw [if_neg hv] at hc
    rcases List.mem_iff_get?.mp hc with ⟨m, hm⟩
    have hmlen := List.get?_eq_some.mp hm |>.choose_spec
    have hmlt : m < ((imt.drop (lowerBound imt a.key)).take
        (reinsertStop imt anchors i - lowerBound imt a.key)).length :=
      (List.get?_eq_some.mp hm).choose
    rw [List.length_take, List.length_drop] at hmlt
    have hmt : m < reinsertStop imt anchors i - lowerBound imt a.key := by omega
    rw [List.get?_take hmt, List.get?_drop] at hm
    rcases List.get?_eq_some.mp hm with ⟨hlen, hget⟩
    exact ⟨hv, lowerBound imt a.key + m, by omega, by omega, hlen, hget⟩

/-- Keys of the records in anchor `i`'s slice lie in the partition
`[aᵢ, aᵢ₊₁)`. -/
theorem procSlice_key_bounds (imt anchors : List Rec) (i : Nat) (a c : Rec)
    (himt : imt.Pairwise (fun x y => keyLt x.key y.key))
    (hc : c ∈ procSlice imt anchors i a) :
    ¬ keyLt c.key a.key ∧ (∀ az, anchors.get? (i + 1) = some az → keyLt c.key az.key) := by
  rcases procSlice_mem imt anchors i a c hc with ⟨_, jdx, hs, ht, hj, hget⟩
  constructor
  · rw [← hget]
    exact not_keyLt_of_lowerBound_le imt a.key jdx himt hj hs
  · intro az haz
    have hstop : reinsertStop imt anchors i = lowerBound imt az.key := by
      unfold reinsertStop; rw [haz]
    rw [hstop] at ht
    rw [← hget]
    exact keyLt_of_lt_lowerBound imt az.key jdx hj ht

/-- A rejected anchor's slice contains every IMT record in its
partition. -/
theorem procSlice_mem_of_idx (imt anchors : List Rec) (i : Nat) (a : Rec)
    (hv : ¬ a.vlen = 0) (jdx : Nat) (hj : jdx < imt.length)
    (h1 : lowerBound imt a.key ≤ jdx) (h2 : jdx < reinsertStop imt anchors i) :
    imt.get ⟨jdx, hj⟩ ∈ procSlice imt anchors i a := by
  unfold procSlice
  rw [if_neg hv]
  apply List.mem_iff_get?.mpr
  refine ⟨jdx - lowerBound imt a.key, ?_⟩
  rw [List.get?_take (by omega), List.get?_drop]
  have : lowerBound imt a.key + (jdx - lowerBound imt a.key) = jdx := by omega
  rw [this]
  exact List.get?_eq_get hj ▸ congrArg some rfl

/-- Every record processed by the outer loop from `i0` on belongs to the
slice of some anchor at index at least `i0`. -/
theorem procAll_mem (imt anchors : List Rec) (i0 : Nat) (c : Rec)
    (hc : c ∈ procAll imt anchors i0) :
    ∃ ii a, i0 ≤ ii ∧ anchors.get? ii = some a ∧ c ∈ procSlice imt anchors ii a := by
  obtain ⟨n, hn⟩ : ∃ n, anchors.length - i0 = n := ⟨_, rfl⟩
  induction n generalizing i0 with
  | zero =>
    rw [procAll_none imt anchors i0 (List.get?_eq_none.mpr (by omega))] at hc
    cases hc
  | succ n ih =>
    cases ha : anchors.get? i0 with
    | none =>
      rw [procAll_none imt anchors i0 ha] at hc
      cases hc
    | some a =>
      rcases List.get?_eq_some.mp ha with ⟨hlt, _⟩
      rw [procAll_some imt anchors i0 a ha] at hc
      rcases List.mem_append.mp hc with hsl | hrest
      · exact ⟨i0, a, Nat.le_refl i0, ha, hsl⟩
      · rcases ih (i0 + 1) hrest (by omega) with ⟨ii, b, hii, hb, hmem⟩
        exact ⟨ii, b, by omega, hb, hmem⟩

/-- The processed records split at any anchor index into the earlier
slices and the rest. -/
theorem procAll_split (imt anchors : List Rec) (i0 i : Nat) (h : i0 ≤ i) :
    ∃ pre, procAll imt anchors i0 = pre ++ procAll imt anchors i ∧
      ∀ c ∈ pre, ∃ ii a, i0 ≤ ii ∧ ii < i ∧ anchors.get? ii = some a ∧
        c ∈ procSlice imt anchors ii a := by
  obtain ⟨n, hn⟩ : ∃ n, i - i0 = n := ⟨_, rfl⟩
  induction n generalizing i0 with
  | zero =>
    have : i0 = i := by omega
    subst this
    exact ⟨[], by simp, by simp⟩
  | succ n ih =>
    cases ha : anchors.get? i0 with
    | none =>
      have hlen : anchors.length ≤ i0 := List.get?_eq_none.mp ha
      refine ⟨[], ?_, by simp⟩
      rw [procAll_none imt anchors i0 ha,
        procAll_none imt anchors i (List.get?_eq_none.mpr (by omega))]
      rfl
    | some a =>
      rcases ih (i0 + 1) (by omega) (by omega) with ⟨pre, hpre, hprem⟩
      refine ⟨procSlice imt anchors i0 a ++ pre, ?_, ?_⟩
      · rw [procAll_some imt anchors i0 a ha, hpre, List.append_assoc]
      · intro c hcm
        rcases List.mem_append.mp hcm with hsl | hp
        · exact ⟨i0, a, Nat.le_refl i0, by omega, ha, hsl⟩
        · rcases hprem c hp with ⟨ii, b, hii, hiilt, hb, hmem⟩
          exact ⟨ii, b, by omega, hiilt, hb, hmem⟩

/-- An anchor slice inherits the strict key order of the IMT. -/
theorem procSlice_pairwise (imt anchors : List Rec) (i : Nat) (a : Rec)
    (himt : imt.Pairwise (fun x y => keyLt x.key y.key)) :
    (procSlice imt anchors i a).Pairwise (fun x y => keyLt x.key y.key) := by
  unfold procSlice
  by_cases hv : a.vlen = 0
  · rw [if_pos hv]; exact List.Pairwise.nil
  · rw [if_neg hv]
    exact List.Pairwise.sublist ((List.take_sublist _ _).trans (List.drop_sublist _ _)) himt

/-- C5.  During the reinsertion phase of compaction (IMT and anchors in
strict key order): (1) the WAL is append-only, and `mtsz` grows by exactly
the total size of the appended records; (2) a key already present in the
new WMT keeps its WMT record — it is never overwritten; (3) every IMT
record whose key lies in a rejected partition (anchor `vlen ≠ 0`) and is
absent from the WMT is inserted into the WMT and appended to the WAL;
(4) a key lying in an accepted partition (anchor `vlen = 0`) is not
reinserted: its WMT entry is unchanged and no record with that key is
appended to the WAL. -/
theorem c5_reinsert_rejected (st : RSt) (imt anchors : List Rec)
    (himt : imt.Pairwise (fun x y => keyLt x.key y.key))
    (hanc : anchors.Pairwise (fun x y => keyLt x.key y.key)) :
    (∃ app, (xdb_reinsert_rejected st imt anchors).wal = st.wal ++ app ∧
      (xdb_reinsert_rejected st imt anchors).mtsz = st.mtsz + (app.map sst_kv_size).sum) ∧
    (∀ k w, mtGet st.wmt k = some w →
      mtGet (xdb_reinsert_rejected st imt anchors).wmt k = some w) ∧
    (∀ i a r, anchors.get? i = some a → a.vlen ≠ 0 → r ∈ imt →
      ¬ keyLt r.key a.key →
      (∀ az, anchors.get? (i + 1) = some az → keyLt r.key az.key) →
      mtGet st.wmt r.key = none →
      mtGet (xdb_reinsert_rejected st imt anchors).wmt r.key = some r ∧
        r ∈ (xdb_reinsert_rejected st imt anchors).wal) ∧
    (∀ i a k, anchors.get? i = some a → a.vlen = 0 →
      ¬ keyLt k a.key →
      (∀ az, anchors.get? (i + 1) = some az → keyLt k az.key) →
      mtGet (xdb_reinsert_rejected st imt anchors).wmt k = mtGet st.wmt k ∧
        ∀ w ∈ (xdb_reinsert_rejected st imt anchors).wal, w ∈ st.wal ∨ w.key ≠ k) := by
  have hrw : xdb_reinsert_rejected st imt anchors
      = (procAll imt anchors 0).foldl xdb_mt_reinsert_step st :=
    reinsertAnchors_eq_foldl imt anchors hanc st 0
  rw [hrw]
  refine ⟨?_, ?_, ?_, ?_⟩
  · rcases rs_foldl_wal (procAll imt anchors 0) st with ⟨app, h1, h2, _⟩
    exact ⟨app, h1, h2⟩
  · intro k w h
    exact rs_foldl_present _ st k w h
  · intro i a r ha hv hr hra hrz habs
    rcases List.mem_iff_get.mp hr with ⟨⟨jdx, hjl⟩, hjget⟩
    have hs_le : lowerBound imt a.key ≤ jdx := by
      by_contra hlt
      push_neg at hlt
      have := keyLt_of_lt_lowerBound imt a.key jdx hjl hlt
      rw [hjget] at this
      exact hra this
    have hstop : jdx < reinsertStop imt anchors i := by
      unfold reinsertStop
      cases haz : anchors.get? (i + 1) with
      | some az =>
        by_contra hge
        push_neg at hge
        have := not_keyLt_of_lowerBound_le imt az.key jdx himt hjl hge
        rw [hjget] at this
        exact this (hrz az haz)
      | none => exact hjl
    have hrslice : r ∈ procSlice imt anchors i a := by
      have := procSlice_mem_of_idx imt anchors i a hv jdx hjl hs_le hstop
      rwa [hjget] at this
    rcases List.get?_eq_some.mp ha with ⟨hilen, _⟩
    rcases procAll_split imt anchors 0 i (by omega) with ⟨pre, hsplit, hprem⟩
    rw [procAll_some imt anchors i a ha] at hsplit
    rcases List.append_of_mem hrslice with ⟨S1, S2, hslice⟩
    have har : kref_compare a.key r.key ≠ .gt := fun hg => hra (kref_compare_gt_iff.mp hg)
    have hpre_ne : ∀ c ∈ pre, c.key ≠ r.key := by
      intro c hcm
      rcases hprem c hcm with ⟨ii, b, _, hiilt, hb, hcsl⟩
      obtain ⟨bz, hbz⟩ : ∃ bz, anchors.get? (ii + 1) = some bz :=
        ⟨anchors.get ⟨ii + 1, by omega⟩, List.get?_eq_get (by omega)⟩
      have hcb : keyLt c.key bz.key :=
        (procSlice_key_bounds imt anchors ii b c himt hcsl).2 bz hbz
      have hba : kref_compare bz.key a.key ≠ .gt :=
        anchors_nGt anchors hanc (ii + 1) i (by omega) bz a hbz ha
      exact keyLt_ne (keyLt_of_keyLt_of_nGt (keyLt_of_keyLt_of_nGt hcb hba) har)
    have hpw : (S1 ++ r :: S2).Pairwise (fun x y => keyLt x.key y.key) := by
      rw [← hslice]
      exact procSlice_pairwise imt anchors i a himt
    rcases List.pairwise_append.mp hpw with ⟨hpw1, hpw2, hrel⟩
    have hS1 : ∀ c ∈ S1, c.key ≠ r.key :=
      fun c hc => keyLt_ne (hrel c hc r (List.mem_cons_self _ _))
    have hS2 : ∀ c ∈ S2, c.key ≠ r.key := by
      intro c hc he
      exact keyLt_ne ((List.pairwise_cons.mp hpw2).1 c hc) he.symm
    have hpost_ne : ∀ c ∈ procAll imt anchors (i + 1), c.key ≠ r.key := by
      intro c hcm
      rcases procAll_mem imt anchors (i + 1) c hcm with ⟨ii, b, hii, hb, hcsl⟩
      rcases List.get?_eq_some.mp hb with ⟨hiilen, _⟩
      obtain ⟨az, hazx⟩ : ∃ az, anchors.get? (i + 1) = some az :=
        ⟨anchors.get ⟨i + 1, by omega⟩, List.get?_eq_get (by omega)⟩
      have hraz : keyLt r.key az.key := hrz az hazx
      have hab : kref_compare az.key b.key ≠ .gt :=
        anchors_nGt anchors hanc (i + 1) ii (by omega) az b hazx hb
      have hcge : ¬ keyLt c.key b.key :=
        (procSlice_key_bounds imt anchors ii b c himt hcsl).1
      have hbc : kref_compare b.key c.key ≠ .gt := fun hg => hcge (kref_compare_gt_iff.mp hg)
      intro he
      exact keyLt_ne
        (keyLt_of_keyLt_of_nGt (keyLt_of_keyLt_of_nGt hraz hab) hbc) he.symm
    have hall : procAll imt anchors 0
        = (pre ++ S1) ++ r :: (S2 ++ procAll imt anchors (i + 1)) := by
      rw [hsplit, hslice]
      simp [List.append_assoc]
    rw [hall]
    apply rs_foldl_insert
    · intro c hc
      rcases List.mem_append.mp hc with h | h
      exacts [hpre_ne c h, hS1 c h]
    · intro c hc
      rcases List.mem_append.mp hc with h | h
      exacts [hS2 c h, hpost_ne c h]
    · exact habs
  · intro i a k ha hv hka hkz
    have hak : kref_compare a.key k ≠ .gt := fun hg => hka (kref_compare_gt_iff.mp hg)
    have hne : ∀ c ∈ procAll imt anchors 0, c.key ≠ k := by
      intro c hcm
      rcases procAll_mem imt anchors 0 c hcm with ⟨ii, b, _, hb, hcsl⟩
      have hbv : b.vlen ≠ 0 := (procSlice_mem imt anchors ii b c hcsl).1
      rcases List.get?_eq_some.mp hb with ⟨hiilen, _⟩
      rcases Nat.lt_trichotomy ii i with hlt | heq | hgt
      · obtain ⟨bz, hbz⟩ : ∃ bz, anchors.get? (ii + 1) = some bz := by
          rcases List.get?_eq_some.mp ha with ⟨hilen, _⟩
          exact ⟨anchors.get ⟨ii + 1, by omega⟩, List.get?_eq_get (by omega)⟩
        have hcb : keyLt c.key bz.key :=
          (procSlice_key_bounds imt anchors ii b c himt hcsl).2 bz hbz
        have hba : kref_compare bz.key a.key ≠ .gt :=
          anchors_nGt anchors hanc (ii + 1) i (by omega) bz a hbz ha
        exact keyLt_ne (keyLt_of_keyLt_of_nGt (keyLt_of_keyLt_of_nGt hcb hba) hak)
      · subst heq
        rw [ha] at hb
        obtain rfl : a = b := by injection hb
        exact absurd hv hbv
      · obtain ⟨az, hazx⟩ : ∃ az, anchors.get? (i + 1) = some az :=
          ⟨anchors.get ⟨i + 1, by omega⟩, List.get?_eq_get (by omega)⟩
        have hkaz : keyLt k az.key := hkz az hazx
        have hab : kref_compare az.key b.key ≠ .gt :=
          anchors_nGt anchors hanc (i + 1) ii (by omega) az b hazx hb
        have hcge : ¬ keyLt c.key b.key :=
          (procSlice_key_bounds imt anchors ii b c himt hcsl).1
        have hbc : kref_compare b.key c.key ≠ .gt := fun hg => hcge (kref_compare_gt_iff.mp hg)
        intro he
        exact keyLt_ne
          (keyLt_of_keyLt_of_nGt (keyLt_of_keyLt_of_nGt hkaz hab) hbc) he.symm
    constructor
    · exact rs_foldl_untouched _ st k hne
    · rcases rs_foldl_wal (procAll imt anchors 0) st with ⟨app, h1, _, hmem⟩
      intro w hw
      rw [h1] at hw
      rcases List.mem_append.mp hw with h | h
      · exact Or.inl h
      · exact Or.inr (hne w (hmem w h))

/-- Witness for C5: one rejected partition, one IMT record, empty WMT. -/
theorem c5_reinsert_rejected_witness :
    mtGet (xdb_reinsert_rejected ⟨[], 0, []⟩ [⟨1, 0, 0, [9]⟩] [⟨0, 1, 0, []⟩]).wmt
        (Rec.key ⟨1, 0, 0, [9]⟩) = some ⟨1, 0, 0, [9]⟩ ∧
      (⟨1, 0, 0, [9]⟩ : Rec) ∈ (xdb_reinsert_rejected ⟨[], 0, []⟩ [⟨1, 0, 0, [9]⟩]
        [⟨0, 1, 0, []⟩]).wal :=
  (c5_reinsert_rejected ⟨[], 0, []⟩ [⟨1, 0, 0, [9]⟩] [⟨0, 1, 0, []⟩]
      (by simp) (by simp)).2.2.1 0 ⟨0, 1, 0, []⟩ ⟨1, 0, 0, [9]⟩
    (by rfl) (by decide) (by simp) (by decide)
    (by intro az haz; simp at haz) (by rfl)

/-! ## Claim C3: the TS-aware merging iterator

Order lemmas for `miter_should_swap`. -/

theorem ss_some_some {sp sc : MStream} {rp rc : Rec} (hp : sp.cur = some rp)
    (hc : sc.cur = some rc) :
    miter_should_swap sp sc
      = (kref_compare rp.key rc.key = .gt ∨
          (kref_compare rp.key rc.key = .eq ∧ sp.rank < sc.rank) : Bool) := by
  unfold miter_should_swap
  rw [hp, hc]
  rcases hcmp : kref_compare rp.key rc.key with _ | _ | _ <;> simp [hcmp]

theorem ss_none_parent {sp sc : MStream} (hp : sp.cur = none) :
    miter_should_swap sp sc = true := by
  unfold miter_should_swap
  rw [hp]

theorem ss_some_none {sp sc : MStream} {rp : Rec} (hp : sp.cur = some rp)
    (hc : sc.cur = none) : miter_should_swap sp sc = false := by
  unfold miter_should_swap
  rw [hp, hc]

theorem ss_false_elim {sp sc : MStream} (h : miter_should_swap sp sc = false) :
    sp.cur ≠ none := by
  intro hp
  rw [ss_none_parent hp] at h
  cases h

theorem ss_true_child_some {sp sc : MStream} (h : miter_should_swap sp sc = true)
    (hp : sp.cur ≠ none) : sc.cur ≠ none := by
  intro hc
  rcases hcur : sp.cur with _ | rp
  · exact hp hcur
  · rw [ss_some_none hcur hc] at h
    cases h

theorem ss_asymm {sp sc : MStream} (h : miter_should_swap sp sc = true)
    (hc : sc.cur ≠ none) : miter_should_swap sc sp = false := by
  rcases hcur : sc.cur with _ | rc
  · exact absurd hcur hc
  rcases hpcur : sp.cur with _ | rp
  · exact ss_some_none hcur hpcur
  · rw [ss_some_some hpcur hcur] at h
    rw [ss_some_some hcur hpcur]
    simp only [decide_eq_true_eq] at h
    simp only [decide_eq_false_iff_not]
    rcases h with hgt | ⟨heq, hrk⟩
    · have hlt : kref_compare rc.key rp.key = .lt := kref_compare_gt_iff.mp hgt
      rw [hlt]
      simp
    · have heq2 : kref_compare rc.key rp.key = .eq := by
        rw [kref_compare_eq_iff] at heq ⊢
        exact heq.symm
      rw [heq2]
      simp
      omega

theorem ss_neg_trans {a b c : MStream} (h1 : miter_should_swap a b = false)
    (h2 : miter_should_swap b c = false) : miter_should_swap a c = false := by
  rcases hac : a.cur with _ | ra
  · exact absurd hac (ss_false_elim h1)
  rcases hcc : c.cur with _ | rc
  · exact ss_some_none hac hcc
  rcases hbc : b.cur with _ | rb
  · exact absurd hbc (ss_false_elim h2)
  rw [ss_some_some hac hbc] at h1
  rw [ss_some_some hbc hcc] at h2
  rw [ss_some_some hac hcc]
  simp only [decide_eq_false_iff_not] at h1 h2 ⊢
  push_neg at h1 h2 ⊢
  constructor
  · intro hgt
    have hlt : kref_compare rc.key ra.key = .lt := kref_compare_gt_iff.mp hgt
    rcases kref_compare_cases ra.key rb.key with hx | hx | hx
    · rcases kref_compare_cases rb.key rc.key with hy | hy | hy
      · exact absurd (kref_compare_lt_trans (kref_compare_lt_trans hx hy) hlt)
          (keyLt_irrefl _)
      · rw [kref_compare_eq_iff.mp hy] at hx
        exact absurd (kref_compare_lt_trans hx hlt) (keyLt_irrefl _)
      · exact absurd hy h2.1
    · rcases kref_compare_cases rb.key rc.key with hy | hy | hy
      · rw [kref_compare_eq_iff.mp hx] at hlt
        exact absurd (kref_compare_lt_trans hy hlt) (keyLt_irrefl _)
      · rw [kref_compare_eq_iff.mp hx, kref_compare_eq_iff.mp hy] at hgt
        rw [kref_compare_self] at hgt
        cases hgt
      · exact absurd hy h2.1
    · exact absurd hx h1.1
  · intro heq
    -- ra = rc keys equal: then both comparisons are eq and ranks chain
    have hacq := kref_compare_eq_iff.mp heq
    rcases kref_compare_cases ra.key rb.key with hx | hx | hx
    · rcases kref_compare_cases rb.key rc.key with hy | hy | hy
      · have := kref_compare_lt_trans hx hy
        rw [heq] at this
        cases this
      · rw [kref_compare_eq_iff.mp hy] at hx
        rw [hacq] at hx
        exact absurd hx (keyLt_irrefl _)
      · exact absurd hy h2.1
    · have hab := kref_compare_eq_iff.mp hx
      have hbcq : kref_compare rb.key rc.key = .eq := by
        rw [kref_compare_eq_iff]
        rw [← hab, hacq]
      have hr1 := h1.2 hx
      have hr2 := h2.2 hbcq
      omega
    · exact absurd hx h1.1

theorem ss_mixed1 {a b c : MStream} (h1 : miter_should_swap a c = false)
    (h2 : miter_should_swap b c = true) : miter_should_swap a b = false := by
  rcases hac : a.cur with _ | ra
  · exact absurd hac (ss_false_elim h1)
  rcases hbc : b.cur with _ | rb
  · exact ss_some_none hac hbc
  rcases hcc : c.cur with _ | rc
  · rw [ss_some_none hbc hcc] at h2
    cases h2
  rw [ss_some_some hac hcc] at h1
  rw [ss_some_some hbc hcc] at h2
  rw [ss_some_some hac hbc]
  simp only [decide_eq_false_iff_not] at h1 ⊢
  simp only [decide_eq_true_eq] at h2
  push_neg at h1 ⊢
  constructor
  · intro hgt
    -- rb < ra; but ra ≤ rc < rb gives a contradiction
    have hba : kref_compare rb.key ra.key = .lt := kref_compare_gt_iff.mp hgt
    rcases h2 with hy | ⟨hy, _⟩
    · -- rc < rb < ra, so ra > rc
      have hcb : kref_compare rc.key rb.key = .lt := kref_compare_gt_iff.mp hy
      have : kref_compare rc.key ra.key = .lt := kref_compare_lt_trans hcb hba
      exact h1.1 (kref_compare_gt_iff.mpr this)
    · rw [kref_compare_eq_iff.mp hy] at hba
      exact h1.1 (kref_compare_gt_iff.mpr hba)
  · intro heq
    -- keys of a and b equal
    have hab := kref_compare_eq_iff.mp heq
    rcases h2 with hy | ⟨hy, hrk⟩
    · -- rb > rc with key(a)=key(b): then a > c, contradiction
      have : kref_compare ra.key rc.key = .gt := by
        rw [hab]
        exact hy
      exact absurd this h1.1
    · have hbcq := kref_compare_eq_iff.mp hy
      have hacq : kref_compare ra.key rc.key = .eq := by
        rw [kref_compare_eq_iff, hab, hbcq]
      have := h1.2 hacq
      omega

theorem ss_mixed2 {a b c : MStream} (h1 : miter_should_swap a c = true)
    (ha : a.cur ≠ none) (h2 : miter_should_swap a b = false) :
    miter_should_swap c b = false := by
  rcases hac : a.cur with _ | ra
  · exact absurd hac ha
  rcases hcc : c.cur with _ | rc
  · exact absurd hcc (ss_true_child_some h1 ha)
  rcases hbc : b.cur with _ | rb
  · exact ss_some_none hcc hbc
  rw [ss_some_some hac hcc] at h1
  rw [ss_some_some hac hbc] at h2
  rw [ss_some_some hcc hbc]
  simp only [decide_eq_true_eq] at h1
  simp only [decide_eq_false_iff_not] at h2 ⊢
  push_neg at h2 ⊢
  constructor
  · intro hgt
    have hbcq : kref_compare rb.key rc.key = .lt := kref_compare_gt_iff.mp hgt
    rcases h1 with hy | ⟨hy, _⟩
    · -- rc < ra and rb < rc gives rb < ra, so a > b
      have hca : kref_compare rc.key ra.key = .lt := kref_compare_gt_iff.mp hy
      exact h2.1 (kref_compare_gt_iff.mpr (kref_compare_lt_trans hbcq hca))
    · rw [← kref_compare_eq_iff.mp hy] at hbcq
      exact h2.1 (kref_compare_gt_iff.mpr hbcq)
  · intro heq
    have hcb := kref_compare_eq_iff.mp heq
    rcases h1 with hy | ⟨hy, hrk⟩
    · -- key(c)=key(b) and ra > rc: then ra > rb, so a > b
      have : kref_compare ra.key rb.key = .gt := by
        rw [← hcb]
        exact hy
      exact absurd this h2.1
    · have hacq := kref_compare_eq_iff.mp hy
      have habq : kref_compare ra.key rb.key = .eq := by
        rw [kref_compare_eq_iff, hacq, ← hcb]
      have := h2.2 habq
      omega

/-! Unfolding the heap operations on the three-stream shape. -/

theorem mhGet_one (x y z : MStream) : mhGet ⟨3, [x, y, z]⟩ 1 = x := rfl

theorem mhGet_two (x y z : MStream) : mhGet ⟨3, [x, y, z]⟩ 2 = y := rfl

theorem mhGet_three (x y z : MStream) : mhGet ⟨3, [x, y, z]⟩ 3 = z := rfl

theorem miter_upheap_at_two (x y z : MStream) :
    miter_upheap ⟨3, [x, y, z]⟩ 2 =
      if y.cur = none then ⟨3, [x, y, z]⟩
      else if miter_should_swap x y then ⟨3, [y, x, z]⟩ else ⟨3, [x, y, z]⟩ := by
  rw [miter_upheap.eq_def]
  norm_num [mhGet, miter_swap]
  by_cases hy : y.cur = none
  · simp [hy]
  · rw [if_neg hy, if_neg hy]
    by_cases hs : miter_should_swap x y = true
    · rw [if_pos hs, if_pos hs, miter_upheap.eq_def]
      norm_num
    · simp only [hs, if_neg, Bool.false_eq_true, if_false]

theorem miter_upheap_at_three (x y z : MStream) :
    miter_upheap ⟨3, [x, y, z]⟩ 3 =
      if z.cur = none then ⟨3, [x, y, z]⟩
      else if miter_should_swap x z then ⟨3, [z, y, x]⟩ else ⟨3, [x, y, z]⟩ := by
  rw [miter_upheap.eq_def]
  norm_num [mhGet, miter_swap]
  by_cases hz : z.cur = none
  · simp [hz]
  · rw [if_neg hz, if_neg hz]
    by_cases hs : miter_should_swap x z = true
    · rw [if_pos hs, if_pos hs, miter_upheap.eq_def]
      norm_num
    · simp only [hs, Bool.false_eq_true, if_false]

theorem miter_downheap_f_succ (fuel : Nat) (mi : Miter) (idx : Nat) :
    miter_downheap_f (fuel + 1) mi idx =
      if 2 * idx ≤ mi.nway then
        let sl := mhGet mi (2 * idx)
        let idxs :=
          if 2 * idx < mi.nway ∧ miter_should_swap sl (mhGet mi (2 * idx + 1)) then 2 * idx + 1
          else 2 * idx
        if miter_should_swap (mhGet mi idx) (mhGet mi idxs) then
          miter_downheap_f fuel (miter_swap mi idxs) idxs
        else mi
      else mi := rfl

theorem miter_downheap_f_stop (fuel : Nat) (mi : Miter) (idx : Nat) (h : ¬ 2 * idx ≤ mi.nway) :
    miter_downheap_f fuel mi idx = mi := by
  cases fuel with
  | zero => rfl
  | succ n => rw [miter_downheap_f_succ, if_neg h]

theorem miter_downheap_at_one (x y z : MStream) :
    miter_downheap ⟨3, [x, y, z]⟩ 1 =
      if miter_should_swap y z then
        (if miter_should_swap x z then ⟨3, [z, y, x]⟩ else ⟨3, [x, y, z]⟩)
      else
        (if miter_should_swap x y then ⟨3, [y, x, z]⟩ else ⟨3, [x, y, z]⟩) := by
  unfold miter_downheap
  rw [miter_downheap_f_succ]
  by_cases hyz : miter_should_swap y z = true
  · by_cases hxz : miter_should_swap x z = true
    · simp only [hyz, hxz, if_true]
      norm_num [mhGet, hyz, hxz]
      rw [show miter_swap ⟨3, [x, y, z]⟩ 3 = ⟨3, [z, y, x]⟩ from rfl,
        miter_downheap_f_stop _ _ _ (by norm_num)]
    · simp only [hyz, if_true]
      norm_num [mhGet, hyz, hxz]
  · by_cases hxy : miter_should_swap x y = true
    · simp only [hyz, hxy]
      norm_num [mhGet, hyz, hxy]
      rw [show miter_swap ⟨3, [x, y, z]⟩ 2 = ⟨3, [y, x, z]⟩ from rfl,
        miter_downheap_f_stop _ _ _ (by norm_num)]
    · simp only [hyz, hxy]
      norm_num [mhGet, hyz, hxy]

theorem miter_valid_three (x y z : MStream) :
    miter_valid ⟨3, [x, y, z]⟩ = (x.cur ≠ none : Bool) := by
  simp [miter_valid, mhGet]

theorem miter_kvref_three (x y z : MStream) :
    miter_kvref ⟨3, [x, y, z]⟩ = x.cur := by
  simp [miter_kvref, mhGet]

theorem miter_skip1_three (x y z : MStream) (hx : x.cur ≠ none) :
    miter_skip1 ⟨3, [x, y, z]⟩ = miter_downheap ⟨3, [streamSkip x, y, z]⟩ 1 := by
  unfold miter_skip1
  rw [miter_valid_three, if_pos (by simpa using hx)]
  rfl

theorem miter_skip1_invalid (x y z : MStream) (hx : x.cur = none) :
    miter_skip1 ⟨3, [x, y, z]⟩ = ⟨3, [x, y, z]⟩ := by
  unfold miter_skip1
  rw [miter_valid_three, if_neg (by simp [hx])]

theorem miter_seek_three (x y z : MStream) (k : Bytes) :
    miter_seek ⟨3, [x, y, z]⟩ k =
      miter_upheap (miter_upheap ⟨3, [streamSeek x k, streamSeek y k, streamSeek z k]⟩ 2) 3 := by
  rfl

theorem perm3_rev {α : Type} (a b c : α) : [a, b, c].Perm [c, b, a] := by
  have h1 : [a, b, c].Perm [b, a, c] := List.Perm.swap b a [c]
  have h2 : [b, a, c].Perm [b, c, a] := List.Perm.cons b (List.Perm.swap c a [])
  have h3 : [b, c, a].Perm [c, b, a] := List.Perm.swap c b [a]
  exact (h1.trans h2).trans h3

theorem perm3_rot {α : Type} (a b c : α) : [a, b, c].Perm [c, a, b] := by
  have h1 : [a, b, c].Perm [a, c, b] := List.Perm.cons a (List.Perm.swap c b [])
  have h2 : [a, c, b].Perm [c, a, b] := List.Perm.swap c a [b]
  exact h1.trans h2

/-- After the top slot of a three-stream heap changed, one `downheap`
restores the heap property; the streams are merely permuted. -/
theorem downheap_one_spec (x y z : MStream) :
    ∃ p q r, miter_downheap ⟨3, [x, y, z]⟩ 1 = ⟨3, [p, q, r]⟩ ∧
      heapOK3 p q r ∧ [x, y, z].Perm [p, q, r] := by
  rw [miter_downheap_at_one]
  by_cases hyz : miter_should_swap y z = true
  · rw [if_pos hyz]
    by_cases hxz : miter_should_swap x z = true
    · rw [if_pos hxz]
      refine ⟨z, y, x, rfl, ⟨?_, ?_⟩, perm3_rev x y z⟩
      · intro hy
        have hz : z.cur ≠ none := by
          rcases hyc : y.cur with _ | ry
          · exact absurd hyc hy
          · exact fun hzc => by
              rw [ss_some_none hyc hzc] at hyz
              cases hyz
        exact ss_asymm hyz hz
      · intro hx
        have hz : z.cur ≠ none := ss_true_child_some hxz hx
        exact ss_asymm hxz hz
    · rw [if_neg hxz]
      refine ⟨x, y, z, rfl, ⟨?_, ?_⟩, List.Perm.refl _⟩
      · intro _
        exact ss_mixed1 (by simpa using hxz) hyz
      · intro _
        simpa using hxz
  · rw [if_neg hyz]
    by_cases hxy : miter_should_swap x y = true
    · rw [if_pos hxy]
      refine ⟨y, x, z, rfl, ⟨?_, ?_⟩, List.Perm.swap y x [z]⟩
      · intro hx
        have hy : y.cur ≠ none := by
          intro hyc
          rcases hxc : x.cur with _ | rx
          · exact hx hxc
          · rw [ss_some_none hxc hyc] at hxy
            cases hxy
        exact ss_asymm hxy hy
      · intro _
        simpa using hyz
    · rw [if_neg hxy]
      refine ⟨x, y, z, rfl, ⟨?_, ?_⟩, List.Perm.refl _⟩
      · intro _
        simpa using hxy
      · intro _
        exact ss_neg_trans (by simpa using hxy) (by simpa using hyz)

/-- The two up-sifts of `miter_seek` establish the heap property on a
three-stream heap; the streams are merely permuted. -/
theorem upheap23_spec (x y z : MStream) :
    ∃ p q r, miter_upheap (miter_upheap ⟨3, [x, y, z]⟩ 2) 3 = ⟨3, [p, q, r]⟩ ∧
      heapOK3 p q r ∧ [x, y, z].Perm [p, q, r] := by
  rw [miter_upheap_at_two]
  by_cases hy : y.cur = none
  · rw [if_pos hy, miter_upheap_at_three]
    by_cases hz : z.cur = none
    · rw [if_pos hz]
      exact ⟨x, y, z, rfl, ⟨fun h => absurd hy h, fun h => absurd hz h⟩, List.Perm.refl _⟩
    · rw [if_neg hz]
      by_cases hxz : miter_should_swap x z = true
      · rw [if_pos hxz]
        exact ⟨z, y, x, rfl, ⟨fun h => absurd hy h, fun _ => ss_asymm hxz hz⟩,
          perm3_rev x y z⟩
      · rw [if_neg hxz]
        exact ⟨x, y, z, rfl, ⟨fun h => absurd hy h, fun _ => by simpa using hxz⟩,
          List.Perm.refl _⟩
  · rw [if_neg hy]
    by_cases hxy : miter_should_swap x y = true
    · rw [if_pos hxy, miter_upheap_at_three]
      by_cases hz : z.cur = none
      · rw [if_pos hz]
        exact ⟨y, x, z, rfl, ⟨fun _ => ss_asymm hxy hy, fun h => absurd hz h⟩,
          List.Perm.swap y x [z]⟩
      · rw [if_neg hz]
        by_cases hyz : miter_should_swap y z = true
        · rw [if_pos hyz]
          refine ⟨z, x, y, rfl, ⟨?_, ?_⟩, perm3_rot x y z⟩
          · intro _
            exact ss_mixed2 hyz hy (ss_asymm hxy hy)
          · intro _
            exact ss_asymm hyz hz
        · rw [if_neg hyz]
          exact ⟨y, x, z, rfl, ⟨fun _ => ss_asymm hxy hy, fun _ => by simpa using hyz⟩,
            List.Perm.swap y x [z]⟩
    · rw [if_neg hxy, miter_upheap_at_three]
      by_cases hz : z.cur = none
      · rw [if_pos hz]
        exact ⟨x, y, z, rfl, ⟨fun _ => by simpa using hxy, fun h => absurd hz h⟩,
          List.Perm.refl _⟩
      · rw [if_neg hz]
        by_cases hxz : miter_should_swap x z = true
        · rw [if_pos hxz]
          refine ⟨z, y, x, rfl, ⟨?_, ?_⟩, perm3_rev x y z⟩
          · intro _
            exact ss_mixed2 hxz (ss_false_elim (by simpa using hxy)) (by simpa using hxy)
          · intro _
            exact ss_asymm hxz hz
        · rw [if_neg hxz]
          exact ⟨x, y, z, rfl, ⟨fun _ => by simpa using hxy, fun _ => by simpa using hxz⟩,
            List.Perm.refl _⟩

theorem cur_pos_lt {s : MStream} {r : Rec} (h : s.cur = some r) : s.pos < s.recs.length :=
  (List.get?_eq_some.mp h).1

/-- On a sorted stream, the record after the current one has a strictly
larger key. -/
theorem streamSkip_cur_keyLt (s : MStream) (hs : sortedRecs s) {r r' : Rec}
    (h : s.cur = some r) (h' : (streamSkip s).cur = some r') : keyLt r.key r'.key := by
  have h1 : s.recs.get? s.pos = some r := h
  have h2 : s.recs.get? (s.pos + 1) = some r' := h'
  obtain ⟨hl1, hg1⟩ := List.get?_eq_some.mp h1
  obtain ⟨hl2, hg2⟩ := List.get?_eq_some.mp h2
  have hp := List.pairwise_iff_get.mp hs ⟨s.pos, hl1⟩ ⟨s.pos + 1, hl2⟩ (by simp)
  rw [hg1, hg2] at hp
  exact hp

/-- The heap property makes the top record hold the smallest current key. -/
theorem allKeysGe_top (mi : Miter) (hinv : Inv3 mi) (rt : Rec)
    (ht : (mhGet mi 1).cur = some rt) : allKeysGe mi rt.key := by
  obtain ⟨hn, x, y, z, hmh, _hsort, _hranks, hheap⟩ := hinv
  have hmi : mi = ⟨3, [x, y, z]⟩ := by
    rcases mi with ⟨nw, mhl⟩
    simp only [Miter.mk.injEq]
    exact ⟨hn, hmh⟩
  subst hmi
  rw [mhGet_one] at ht
  intro s hs r hr
  have hs' : s = x ∨ s = y ∨ s = z := by simpa using hs
  rcases hs' with h | h | h <;> subst h
  · rw [ht] at hr
    injection hr with hr
    subst hr
    exact keyLt_irrefl _
  · have hss := hheap.1 (by rw [hr]; exact fun h => by cases h)
    rw [ss_some_some ht hr] at hss
    simp only [decide_eq_false_iff_not, not_or] at hss
    intro hlt
    exact hss.1 (kref_compare_gt_iff.mpr hlt)
  · have hss := hheap.2 (by rw [hr]; exact fun h => by cases h)
    rw [ss_some_some ht hr] at hss
    simp only [decide_eq_false_iff_not, not_or] at hss
    intro hlt
    exact hss.1 (kref_compare_gt_iff.mpr hlt)

/-- The heap property plus distinct ranks make the top record the
highest-rank holder of its key. -/
theorem topMaxRank_of_inv (mi : Miter) (hinv : Inv3 mi) : topMaxRank mi := by
  obtain ⟨hn, x, y, z, hmh, _hsort, hranks, hheap⟩ := hinv
  have hmi : mi = ⟨3, [x, y, z]⟩ := by
    rcases mi with ⟨nw, mhl⟩
    simp only [Miter.mk.injEq]
    exact ⟨hn, hmh⟩
  subst hmi
  have hranks' : (x.rank ≠ y.rank ∧ x.rank ≠ z.rank) ∧ y.rank ≠ z.rank := by
    simpa [List.pairwise_cons] using hranks
  intro i h2 h3 r hr rt hrt heq
  rw [mhGet_one] at hrt ⊢
  interval_cases i
  · rw [mhGet_two] at hr ⊢
    have hss := hheap.1 (by rw [hr]; exact fun h => by cases h)
    rw [ss_some_some hrt hr] at hss
    simp only [decide_eq_false_iff_not, not_or, not_and] at hss
    have heqc : kref_compare rt.key r.key = .eq := kref_compare_eq_iff.mpr heq.symm
    have := hss.2 heqc
    have hne := hranks'.1.1
    omega
  · rw [mhGet_three] at hr ⊢
    have hss := hheap.2 (by rw [hr]; exact fun h => by cases h)
    rw [ss_some_some hrt hr] at hss
    simp only [decide_eq_false_iff_not, not_or, not_and] at hss
    have heqc : kref_compare rt.key r.key = .eq := kref_compare_eq_iff.mpr heq.symm
    have := hss.2 heqc
    have hne := hranks'.1.2
    omega

/-- `miter_skip1` from a valid invariant state: the invariant is
preserved, the total of unconsumed records strictly decreases, lower
bounds on all keys are preserved, and a stream known to sit on top at the
retained key (or past it) ends strictly past it. -/
theorem miter_skip1_spec (mi : Miter) (hinv : Inv3 mi) (hv : miter_valid mi = true) :
    Inv3 (miter_skip1 mi) ∧
    totalRemaining (miter_skip1 mi) < totalRemaining mi ∧
    (∀ k, allKeysGe mi k → allKeysGe (miter_skip1 mi) k) ∧
    (∀ r0 k0, rankAtTopOrPast mi r0 k0 → rankPast (miter_skip1 mi) r0 k0) := by
  obtain ⟨hn, x, y, z, hmh, hsort, hranks, _hheap⟩ := hinv
  have hmi : mi = ⟨3, [x, y, z]⟩ := by
    rcases mi with ⟨nw, mhl⟩
    simp only [Miter.mk.injEq]
    exact ⟨hn, hmh⟩
  subst hmi
  rw [miter_valid_three] at hv
  have hxne : x.cur ≠ none := by simpa using hv
  rcases hcx : x.cur with _ | rx
  · exact absurd hcx hxne
  have hpos : x.pos < x.recs.length := cur_pos_lt hcx
  have hranks' : (x.rank ≠ y.rank ∧ x.rank ≠ z.rank) ∧ y.rank ≠ z.rank := by
    simpa [List.pairwise_cons] using hranks
  have hsx : sortedRecs x := hsort x (by simp)
  rw [miter_skip1_three x y z hxne]
  obtain ⟨p, q, r, hdh, hpqr, hperm⟩ := downheap_one_spec (streamSkip x) y z
  rw [hdh]
  refine ⟨?_, ?_, ?_, ?_⟩
  · refine ⟨rfl, p, q, r, rfl, ?_, ?_, hpqr⟩
    · intro s hs
      have hs' : s = streamSkip x ∨ s = y ∨ s = z := by
        simpa using hperm.mem_iff.mpr (by simpa using hs)
      rcases hs' with h | h | h
      · subst h
        simpa [sortedRecs, streamSkip] using hsx
      · rw [h]
        exact hsort y (by simp)
      · rw [h]
        exact hsort z (by simp)
    · have hpre : [streamSkip x, y, z].Pairwise (fun a b => a.rank ≠ b.rank) := by
        simpa [List.pairwise_cons, streamSkip] using hranks
      exact (List.Perm.pairwise_iff (fun h => Ne.symm h) hperm).mp hpre
  · have hsum : ([p, q, r].map (fun s => s.recs.length - s.pos)).sum
        = ([streamSkip x, y, z].map (fun s => s.recs.length - s.pos)).sum :=
      ((hperm.map _).sum_eq).symm
    have h1 : totalRemaining ⟨3, [p, q, r]⟩
        = ([p, q, r].map (fun s => s.recs.length - s.pos)).sum := rfl
    have h2 : totalRemaining ⟨3, [x, y, z]⟩
        = ([x, y, z].map (fun s => s.recs.length - s.pos)).sum := rfl
    rw [h1, h2, hsum]
    simp only [List.map_cons, List.map_nil, List.sum_cons, List.sum_nil, streamSkip]
    omega
  · intro k hk s hs r' hr'
    have hs' : s = streamSkip x ∨ s = y ∨ s = z := by
      simpa using hperm.mem_iff.mpr (by simpa using hs)
    rcases hs' with h | h | h
    · subst h
      have hlt := streamSkip_cur_keyLt x hsx hcx hr'
      have hge := hk x (by simp) rx hcx
      intro hcon
      exact hge (keyLt_trans hlt hcon)
    · rw [h] at hr'
      exact hk y (by simp) r' hr'
    · rw [h] at hr'
      exact hk z (by simp) r' hr'
  · intro r0 k0 htp s hs hsr r' hr'
    have hs' : s = streamSkip x ∨ s = y ∨ s = z := by
      simpa using hperm.mem_iff.mpr (by simpa using hs)
    rcases hs' with h | h | h
    · subst h
      have hsr' : x.rank = r0 := by simpa [streamSkip] using hsr
      rcases htp x (by simp) hsr' with ⟨_, rx', hcx', hkx'⟩ | hpast
      · have hlt := streamSkip_cur_keyLt x hsx hcx' hr'
        rw [hkx'] at hlt
        exact hlt
      · exact keyLt_trans (hpast rx hcx) (streamSkip_cur_keyLt x hsx hcx hr')
    · rw [h] at hsr hr'
      rcases htp y (by simp) hsr with ⟨htop, _⟩ | hpast
      · rw [mhGet_one] at htop
        exact absurd (by rw [htop]) hranks'.1.1
      · exact hpast r' hr'
    · rw [h] at hsr hr'
      rcases htp z (by simp) hsr with ⟨htop, _⟩ | hpast
      · rw [mhGet_one] at htop
        exact absurd (by rw [htop]) hranks'.1.2
      · exact hpast r' hr'

/-- The `miter_skip_unique` loop from a valid invariant state with the
retained top key `k0`: the invariant is preserved, at least one record is
consumed, and on exit the iterator (when still valid) sits strictly past
`k0`. -/
theorem miter_skip_unique_loop_spec :
    ∀ (fuel : Nat) (mi : Miter) (k0 : Bytes) (r0 : Nat) (u0 : Bool),
      Inv3 mi → miter_valid mi = true → totalRemaining mi < fuel →
      allKeysGe mi k0 → rankAtTopOrPast mi r0 k0 →
      Inv3 (miter_skip_unique_loop fuel k0 r0 u0 mi) ∧
      totalRemaining (miter_skip_unique_loop fuel k0 r0 u0 mi) < totalRemaining mi ∧
      topGt (miter_skip_unique_loop fuel k0 r0 u0 mi) k0 := by
  intro fuel
  induction fuel with
  | zero =>
    intro mi k0 r0 u0 _ _ hfuel _ _
    omega
  | succ fuel ih =>
    intro mi k0 r0 u0 hinv hv hfuel hge htp
    obtain ⟨hi1, ht1, hkge1, hrp1⟩ := miter_skip1_spec mi hinv hv
    have hge1 : allKeysGe (miter_skip1 mi) k0 := hkge1 k0 hge
    have hrp1' : rankPast (miter_skip1 mi) r0 k0 := hrp1 r0 k0 htp
    have hunf : miter_skip_unique_loop (fuel + 1) k0 r0 u0 mi =
        (if ¬ miter_valid (miter_skip1 mi) then miter_skip1 mi
         else if u0 ∧ (mhGet (miter_skip1 mi) 1).rank = r0 then miter_skip1 mi
         else match (mhGet (miter_skip1 mi) 1).cur with
           | some rc => if kref_compare k0 rc.key = .eq
               then miter_skip_unique_loop fuel k0 r0 u0 (miter_skip1 mi)
               else miter_skip1 mi
           | none => miter_skip1 mi) := rfl
    rw [hunf]
    obtain ⟨hn1, p, q, r, hmh1, _, _, _⟩ := hi1
    have hi1' : Inv3 (miter_skip1 mi) := by
      rw [Inv3]
      exact ⟨hn1, p, q, r, by assumption, by assumption, by assumption, by assumption⟩
    have htopmem : mhGet (miter_skip1 mi) 1 ∈ (miter_skip1 mi).mh := by
      simp [mhGet, hmh1]
    by_cases hv1 : miter_valid (miter_skip1 mi) = true
    · rw [if_neg (not_not_intro hv1)]
      by_cases hu : u0 ∧ (mhGet (miter_skip1 mi) 1).rank = r0
      · rw [if_pos hu]
        refine ⟨hi1', ht1, ?_⟩
        intro _hval rt hrt
        exact hrp1' (mhGet (miter_skip1 mi) 1) htopmem hu.2 rt hrt
      · rw [if_neg hu]
        rcases hcur : (mhGet (miter_skip1 mi) 1).cur with _ | rc
        · exfalso
          rw [miter_valid] at hv1
          simp [hcur] at hv1
        · simp only [hcur]
          by_cases heq : kref_compare k0 rc.key = .eq
          · rw [if_pos heq]
            have hfuel1 : totalRemaining (miter_skip1 mi) < fuel := by omega
            have htp1 : rankAtTopOrPast (miter_skip1 mi) r0 k0 :=
              fun s hs hsr => Or.inr (hrp1' s hs hsr)
            obtain ⟨ha, hb, hc⟩ := ih (miter_skip1 mi) k0 r0 u0 hi1' hv1 hfuel1 hge1 htp1
            exact ⟨ha, by omega, hc⟩
          · rw [if_neg heq]
            refine ⟨hi1', ht1, ?_⟩
            intro _hval rt hrt
            rw [hcur] at hrt
            injection hrt with hrt
            subst hrt
            have hge_top := hge1 (mhGet (miter_skip1 mi) 1) htopmem rc hcur
            rcases kref_compare_cases k0 rc.key with hc | hc | hc
            · exact hc
            · exact absurd hc heq
            · exact absurd (kref_compare_gt_iff.mp hc) hge_top
    · rw [if_pos (by simpa using hv1)]
      refine ⟨hi1', ht1, ?_⟩
      intro hval
      exact absurd hval hv1

/-- `miter_skip_unique` from a valid invariant state: the invariant is
preserved, progress is made, and the iterator moves strictly past the key
it was on. -/
theorem miter_skip_unique_spec (mi : Miter) (hinv : Inv3 mi) (hv : miter_valid mi = true) :
    Inv3 (miter_skip_unique mi) ∧
    totalRemaining (miter_skip_unique mi) < totalRemaining mi ∧
    (∀ rx, (mhGet mi 1).cur = some rx → topGt (miter_skip_unique mi) rx.key) := by
  have hunf : miter_skip_unique mi =
      (if ¬ miter_valid mi then mi
       else match (mhGet mi 1).cur with
         | none => mi
         | some r0c =>
           miter_skip_unique_loop (totalRemaining mi + 1) r0c.key (mhGet mi 1).rank
             (mhGet mi 1).uniq mi) := rfl
  rw [hunf, if_neg (not_not_intro hv)]
  rcases hcur : (mhGet mi 1).cur with _ | r0c
  · exfalso
    rw [miter_valid] at hv
    simp [hcur] at hv
  · simp only [hcur]
    have hge := allKeysGe_top mi hinv r0c hcur
    have htp : rankAtTopOrPast mi (mhGet mi 1).rank r0c.key := by
      obtain ⟨hn, x, y, z, hmh, _hsort, hranks, _hheap⟩ := hinv
      have hmi : mi = ⟨3, [x, y, z]⟩ := by
        rcases mi with ⟨nw, mhl⟩
        simp only [Miter.mk.injEq]
        exact ⟨hn, hmh⟩
      subst hmi
      have hranks' : (x.rank ≠ y.rank ∧ x.rank ≠ z.rank) ∧ y.rank ≠ z.rank := by
        simpa [List.pairwise_cons] using hranks
      rw [mhGet_one] at hcur
      intro s hs hsr
      rw [mhGet_one] at hsr
      have hs' : s = x ∨ s = y ∨ s = z := by simpa using hs
      rcases hs' with h | h | h
      · left
        refine ⟨by rw [mhGet_one, h], r0c, ?_, rfl⟩
        rw [h]
        exact hcur
      · exfalso
        rw [h] at hsr
        exact hranks'.1.1 hsr.symm
      · exfalso
        rw [h] at hsr
        exact hranks'.1.2 hsr.symm
    obtain ⟨ha, hb, hc⟩ := miter_skip_unique_loop_spec (totalRemaining mi + 1) mi r0c.key
      (mhGet mi 1).rank (mhGet mi 1).uniq hinv hv (Nat.lt_succ_self _) hge htp
    refine ⟨ha, hb, ?_⟩
    intro rx hrx
    injection hrx with hrx
    subst hrx
    exact hc

/-- The tombstone-skipping loop of `xdb_iter_skip_ts`: the invariant is
preserved, the result is tombstone-free on top, and strict lower bounds on
the current key are preserved. -/
theorem xdb_iter_skip_ts_loop_spec :
    ∀ (fuel : Nat) (mi : Miter), Inv3 mi → totalRemaining mi < fuel →
      Inv3 (xdb_iter_skip_ts_loop fuel mi) ∧
      totalRemaining (xdb_iter_skip_ts_loop fuel mi) ≤ totalRemaining mi ∧
      tsOK (xdb_iter_skip_ts_loop fuel mi) ∧
      (∀ k0, topGt mi k0 → topGt (xdb_iter_skip_ts_loop fuel mi) k0) := by
  intro fuel
  induction fuel with
  | zero =>
    intro mi _ h
    omega
  | succ fuel ih =>
    intro mi hinv hfuel
    have hn := hinv.1
    have hunf : xdb_iter_skip_ts_loop (fuel + 1) mi =
        (match miter_kvref mi with
         | none => mi
         | some r =>
           if r.vlen = SST_VLEN_TS then xdb_iter_skip_ts_loop fuel (miter_skip_unique mi)
           else mi) := rfl
    rw [hunf]
    rcases hkv : miter_kvref mi with _ | r
    · simp only [hkv]
      refine ⟨hinv, le_refl _, ?_, fun k0 h => h⟩
      intro _hval r' hr'
      rw [miter_kvref, if_neg (by rw [hn]; omega)] at hkv
      rw [hkv] at hr'
      cases hr'
    · simp only [hkv]
      have hcur_top : (mhGet mi 1).cur = some r := by
        rw [miter_kvref, if_neg (by rw [hn]; omega)] at hkv
        exact hkv
      have hval : miter_valid mi = true := by
        rw [miter_valid]
        simp [hn, hcur_top]
      by_cases hts : r.vlen = SST_VLEN_TS
      · rw [if_pos hts]
        obtain ⟨ha1, hb1, hc1⟩ := miter_skip_unique_spec mi hinv hval
        have htopgt := hc1 r hcur_top
        have hfuel1 : totalRemaining (miter_skip_unique mi) < fuel := by omega
        obtain ⟨ha, hb, hcts, hpres⟩ := ih (miter_skip_unique mi) ha1 hfuel1
        refine ⟨ha, by omega, hcts, ?_⟩
        intro k0 hk0
        apply hpres
        intro hv2 r' hr'
        exact keyLt_trans (hk0 hval r hcur_top) (htopgt hv2 r' hr')
      · rw [if_neg hts]
        refine ⟨hinv, le_refl _, ?_, fun k0 h => h⟩
        intro _hval r' hr'
        rw [hcur_top] at hr'
        injection hr' with hr'
        subst hr'
        exact hts

/-- `xdb_iter_skip_ts`: invariant preservation, a tombstone-free top, and
preservation of strict key lower bounds. -/
theorem xdb_iter_skip_ts_spec (mi : Miter) (hinv : Inv3 mi) :
    Inv3 (xdb_iter_skip_ts mi) ∧
    totalRemaining (xdb_iter_skip_ts mi) ≤ totalRemaining mi ∧
    tsOK (xdb_iter_skip_ts mi) ∧
    (∀ k0, topGt mi k0 → topGt (xdb_iter_skip_ts mi) k0) :=
  xdb_iter_skip_ts_loop_spec (totalRemaining mi + 1) mi hinv (Nat.lt_succ_self _)

/-- `xdb_iter_skip1` (skip-unique then skip tombstones): the invariant and
tombstone-freeness hold afterwards, and from a valid state the iterator
moves strictly past the key it was on. -/
theorem xdb_iter_skip1_spec (mi : Miter) (hinv : Inv3 mi) :
    Inv3 (xdb_iter_skip1 mi) ∧ tsOK (xdb_iter_skip1 mi) ∧
    (∀ rx, miter_valid mi = true → (mhGet mi 1).cur = some rx →
      topGt (xdb_iter_skip1 mi) rx.key) := by
  unfold xdb_iter_skip1
  by_cases hv : miter_valid mi = true
  · obtain ⟨ha1, _hb1, hc1⟩ := miter_skip_unique_spec mi hinv hv
    obtain ⟨ha, _hb, hts, hpres⟩ := xdb_iter_skip_ts_spec (miter_skip_unique mi) ha1
    exact ⟨ha, hts, fun rx _ hrx => hpres rx.key (hc1 rx hrx)⟩
  · have hn := hinv.1
    have hcn : (mhGet mi 1).cur = none := by
      by_contra hc
      apply hv
      rw [miter_valid]
      simp [hn, hc]
    have h1 : miter_skip_unique mi = mi := by
      rw [miter_skip_unique, if_pos (by simpa using hv)]
    have h2 : xdb_iter_skip_ts mi = mi := by
      have hkv : miter_kvref mi = none := by
        rw [miter_kvref, if_neg (by rw [hn]; omega)]
        exact hcn
      rw [xdb_iter_skip_ts]
      have hunf : xdb_iter_skip_ts_loop (totalRemaining mi + 1) mi =
          (match miter_kvref mi with
           | none => mi
           | some r =>
             if r.vlen = SST_VLEN_TS
               then xdb_iter_skip_ts_loop (totalRemaining mi) (miter_skip_unique mi)
             else mi) := rfl
      rw [hunf]
      simp only [hkv]
    rw [h1, h2]
    refine ⟨hinv, ?_, ?_⟩
    · intro hval
      exact absurd hval hv
    · intro rx hval _hrx
      exact absurd hval hv

/-- The master induction: from any invariant, tombstone-free-on-top state,
the sequence of yielded records has strictly increasing keys, contains no
tombstones, and every intermediate valid state yields from the
highest-rank holder of its key; a strict lower bound on the current key
bounds every later yield. -/
theorem xdb_yields_spec :
    ∀ (n : Nat) (mi : Miter), Inv3 mi → tsOK mi →
      (xdbYields n mi).Pairwise (fun a b => keyLt a.key b.key) ∧
      (∀ r ∈ xdbYields n mi, r.vlen ≠ SST_VLEN_TS) ∧
      (∀ st ∈ xdbStates n mi, miter_valid st = true → topMaxRank st) ∧
      (∀ k0, topGt mi k0 → ∀ b ∈ xdbYields n mi, keyLt k0 b.key) := by
  intro n
  induction n with
  | zero =>
    intro mi _ _
    exact ⟨List.Pairwise.nil, by simp [xdbYields], by simp [xdbStates], by simp [xdbYields]⟩
  | succ n ih =>
    intro mi hinv hts
    have hn := hinv.1
    have hunfY : xdbYields (n + 1) mi =
        (if miter_valid mi then
          match miter_kvref mi with
          | some r => r :: xdbYields n (xdb_iter_skip1 mi)
          | none => []
        else []) := rfl
    have hunfS : xdbStates (n + 1) mi = mi :: xdbStates n (xdb_iter_skip1 mi) := rfl
    obtain ⟨hi', hts', hstrict⟩ := xdb_iter_skip1_spec mi hinv
    obtain ⟨ihP, ihT, ihS, ihB⟩ := ih (xdb_iter_skip1 mi) hi' hts'
    rw [hunfY, hunfS]
    by_cases hv : miter_valid mi = true
    · rw [if_pos hv]
      have hcur : ∃ r, (mhGet mi 1).cur = some r := by
        rcases hc : (mhGet mi 1).cur with _ | r
        · rw [miter_valid] at hv
          simp [hc] at hv
        · exact ⟨r, rfl⟩
      obtain ⟨r, hcur⟩ := hcur
      have hkv : miter_kvref mi = some r := by
        rw [miter_kvref, if_neg (by rw [hn]; omega)]
        exact hcur
      simp only [hkv]
      have hgt : topGt (xdb_iter_skip1 mi) r.key := hstrict r hv hcur
      refine ⟨?_, ?_, ?_, ?_⟩
      · rw [List.pairwise_cons]
        exact ⟨fun b hb => ihB r.key hgt b hb, ihP⟩
      · intro r' hr'
        rcases List.mem_cons.mp hr' with h | h
        · rw [h]
          exact hts hv r hcur
        · exact ihT r' h
      · intro st hst
        rcases List.mem_cons.mp hst with h | h
        · rw [h]
          intro _hval
          exact topMaxRank_of_inv mi hinv
        · exact ihS st h
      · intro k0 hk0 b hb
        rcases List.mem_cons.mp hb with h | h
        · rw [h]
          exact hk0 hv r hcur
        · have hgt0 : topGt (xdb_iter_skip1 mi) k0 :=
            fun hv2 r' hr' => keyLt_trans (hk0 hv r hcur) (hgt hv2 r' hr')
          exact ihB k0 hgt0 b h
    · rw [if_neg hv]
      refine ⟨List.Pairwise.nil, by simp, ?_, by simp⟩
      intro st hst
      rcases List.mem_cons.mp hst with h | h
      · rw [h]
        intro hval
        exact absurd hval hv
      · exact ihS st h

/-- `miter_seek` on three sorted streams with pairwise distinct ranks
establishes the invariant. -/
theorem miter_seek_inv (x y z : MStream) (k : Bytes)
    (hsx : sortedRecs x) (hsy : sortedRecs y) (hsz : sortedRecs z)
    (hr1 : x.rank ≠ y.rank) (hr2 : x.rank ≠ z.rank) (hr3 : y.rank ≠ z.rank) :
    Inv3 (miter_seek ⟨3, [x, y, z]⟩ k) := by
  rw [miter_seek_three]
  obtain ⟨p, q, r, heq, hok, hperm⟩ :=
    upheap23_spec (streamSeek x k) (streamSeek y k) (streamSeek z k)
  rw [heq]
  refine ⟨rfl, p, q, r, rfl, ?_, ?_, hok⟩
  · intro s hs
    have hs' : s = streamSeek x k ∨ s = streamSeek y k ∨ s = streamSeek z k := by
      simpa using hperm.mem_iff.mpr (by simpa using hs)
    rcases hs' with h | h | h <;> rw [h]
    · simpa [sortedRecs, streamSeek] using hsx
    · simpa [sortedRecs, streamSeek] using hsy
    · simpa [sortedRecs, streamSeek] using hsz
  · have hpre : [streamSeek x k, streamSeek y k,
        streamSeek z k].Pairwise (fun a b => a.rank ≠ b.rank) := by
      refine List.Pairwise.cons ?_ (List.Pairwise.cons ?_
        (List.Pairwise.cons (by simp) List.Pairwise.nil))
      · intro b hb
        have hb' : b = streamSeek y k ∨ b = streamSeek z k := by simpa using hb
        rcases hb' with h | h
        · rw [h]
          simpa [streamSeek] using hr1
        · rw [h]
          simpa [streamSeek] using hr2
      · intro b hb
        have hb' : b = streamSeek z k := by simpa using hb
        rw [hb']
        simpa [streamSeek] using hr3
    exact (List.Perm.pairwise_iff (fun h => Ne.symm h) hperm).mp hpre

/-- `xdb_iter_seek` on the three-way xdb miter (SSTable version rank 0,
IMT rank 1, WMT rank 2) establishes the invariant and leaves no tombstone
on top. -/
theorem xdb_iter_seek_spec (sstR imtR wmtR : List Rec) (k : Bytes)
    (hsst : sstR.Pairwise (fun a b => keyLt a.key b.key))
    (himt : imtR.Pairwise (fun a b => keyLt a.key b.key))
    (hwmt : wmtR.Pairwise (fun a b => keyLt a.key b.key)) :
    Inv3 (xdb_iter_seek (xdb_iter_miter sstR imtR wmtR) k) ∧
    tsOK (xdb_iter_seek (xdb_iter_miter sstR imtR wmtR) k) := by
  have hinv := miter_seek_inv ⟨sstR, 0, 0, true⟩ ⟨imtR, 0, 1, true⟩ ⟨wmtR, 0, 2, true⟩ k
    hsst himt hwmt (by simp) (by simp) (by simp)
  obtain ⟨ha, _, hts, _⟩ := xdb_iter_skip_ts_spec _ hinv
  exact ⟨ha, hts⟩

/-- C3: over the TS-aware merging iterator (SSTable version rank 0, IMT
rank 1, WMT rank 2, each source iterating unique keys in strictly
increasing order), any seek followed by any number of skips yields records
with strictly increasing keys — so each key is yielded at most once —
never yields a record whose vlen is the tombstone sentinel SST_VLEN_TS,
and at every valid yield state the record on top of the heap comes from
the highest-rank source holding its key. -/
theorem c3_merging_iterator (sstR imtR wmtR : List Rec) (k : Bytes) (n : Nat)
    (hsst : sstR.Pairwise (fun a b => keyLt a.key b.key))
    (himt : imtR.Pairwise (fun a b => keyLt a.key b.key))
    (hwmt : wmtR.Pairwise (fun a b => keyLt a.key b.key)) :
    (xdbYields n (xdb_iter_seek (xdb_iter_miter sstR imtR wmtR) k)).Pairwise
      (fun a b => keyLt a.key b.key) ∧
    (∀ r ∈ xdbYields n (xdb_iter_seek (xdb_iter_miter sstR imtR wmtR) k),
      r.vlen ≠ SST_VLEN_TS) ∧
    (∀ st ∈ xdbStates n (xdb_iter_seek (xdb_iter_miter sstR imtR wmtR) k),
      miter_valid st = true → topMaxRank st) := by
  obtain ⟨hinv, hts⟩ := xdb_iter_seek_spec sstR imtR wmtR k hsst himt hwmt
  obtain ⟨hP, hT, hS, _⟩ := xdb_yields_spec n _ hinv hts
  exact ⟨hP, hT, hS⟩

/-- A closed instance of the C3 theorem: one record per source, with the
IMT holding a tombstone for the SSTable's key. -/
theorem c3_merging_iterator_witness :
    (([⟨1, 7, 0, [0, 9]⟩] : List Rec).Pairwise (fun a b => keyLt a.key b.key) ∧
     ([⟨1, 65536, 0, [0]⟩] : List Rec).Pairwise (fun a b => keyLt a.key b.key) ∧
     ([⟨1, 3, 0, [1, 8]⟩] : List Rec).Pairwise (fun a b => keyLt a.key b.key)) ∧
    ((xdbYields 5 (xdb_iter_seek
        (xdb_iter_miter [⟨1, 7, 0, [0, 9]⟩] [⟨1, 65536, 0, [0]⟩] [⟨1, 3, 0, [1, 8]⟩])
        [])).Pairwise (fun a b => keyLt a.key b.key) ∧
     (∀ r ∈ xdbYields 5 (xdb_iter_seek
        (xdb_iter_miter [⟨1, 7, 0, [0, 9]⟩] [⟨1, 65536, 0, [0]⟩] [⟨1, 3, 0, [1, 8]⟩])
        []), r.vlen ≠ SST_VLEN_TS) ∧
     (∀ st ∈ xdbStates 5 (xdb_iter_seek
        (xdb_iter_miter [⟨1, 7, 0, [0, 9]⟩] [⟨1, 65536, 0, [0]⟩] [⟨1, 3, 0, [1, 8]⟩])
        []), miter_valid st = true → topMaxRank st)) :=
  ⟨⟨by simp, by simp, by simp⟩,
    c3_merging_iterator [⟨1, 7, 0, [0, 9]⟩] [⟨1, 65536, 0, [0]⟩] [⟨1, 3, 0, [1, 8]⟩] [] 5
      (by simp) (by simp) (by simp)⟩

end RemixDB
